import Mathlib

/-!
Verification of the HyperLogLog / HyperLogLog++ sketches (`src/hyperloglog_plus.cpp`)

A shallow embedding of the three core classes of the repository:

* `HashFuncGen`      the multiplicative string hash,
* `HyperLogLog`      the dense sketch,
* `HyperLogLogPlus`  the hybrid sparse/dense sketch.

Conventions of the embedding.

* A `std::string` is a list of bytes, `List (Fin 256)`; `static_cast<unsigned char>(c)`
  is the value of the byte.
* `uint64_t` and `uint32_t` values are natural numbers, reduced `% 2 ^ 64` and
  `% 2 ^ 32` at every operation of the source that can wrap.
* `std::vector<uint8_t>` is a `List Nat`; `v[i]` is `v.getD i 0` and `v[i] = x` is
  `v.set i x`.  All stored values are at most 32, so the conversion to `uint8_t`
  never truncates (`pos_le`).
* `std::map<uint16_t, uint8_t>` is an association list kept in increasing key order;
  the conversion of an `int` key to `uint16_t` is `% 65536`.
* `double` values are rationals and the arithmetic on them is exact; `std::log` is a
  parameter `ln` of the two `estimate` functions.
* The entropy source of `HashFuncGen()` is an explicit pair of drawn numbers.
-/

/-! ## HashFuncGen -/

/-- The two `uint64_t` coefficients of a hash function. -/
structure HashFuncGen where
  a : Nat
  b : Nat
deriving DecidableEq, Repr

/-- The constructor `HashFuncGen()`: `r1` and `r2` are the two numbers drawn from
`dist(gen)`; the multiplier is forced odd. -/
def HashFuncGen.new (r1 r2 : Nat) : HashFuncGen :=
  { a := (r1 % 2 ^ 64) ||| 1, b := r2 % 2 ^ 64 }

/-- One round of the loop of `hash`: `h = h * a + static_cast<unsigned char>(c)` on
`uint64_t`. -/
def HashFuncGen.step (g : HashFuncGen) (h : Nat) (c : Fin 256) : Nat :=
  (h * g.a + c.val) % 2 ^ 64

/-- The method `HashFuncGen::hash`: start from `b`, run `step` over the bytes, return
the accumulator converted to `uint32_t`. -/
def HashFuncGen.hash (g : HashFuncGen) (s : List (Fin 256)) : Nat :=
  (s.foldl g.step g.b) % 2 ^ 32

/-- The Horner accumulation as the specification words it: `acc 0 = c` and
`acc (i+1) = (acc i * a + s[i]) mod 2^64`, the byte `s[i]` read as a number
in `[0,255]`. -/
def hornerAcc (a c : Nat) (s : List (Fin 256)) : Nat → Nat
  | 0 => c
  | i + 1 => (hornerAcc a c s i * a + (s.getD i 0).val) % 2 ^ 64

/-! ## Shared pieces of the two sketches -/

/-- The bias-correction constant chosen by both constructors from `q`. -/
def alphaFor (q : Nat) : ℚ :=
  if q = 2 then 0.3512
  else if q = 4 then 0.5324
  else if q = 16 then 0.673
  else if q = 32 then 0.697
  else if q = 64 then 0.709
  else 0.7213 / (1 + 1.079 / (q : ℚ))

/-- The local `ind` of `add`: `h >> 32 - b`, which C++ reads as `h >> (32 - b)`. -/
def ind (b h : Nat) : Nat := h >>> (32 - b)

/-- The local `w` of `add` before the loop: `h << b` as a `uint32_t`, replaced by `1`
when it is `0`. -/
def w (b h : Nat) : Nat :=
  let w := (h <<< b) % 2 ^ 32
  if w = 0 then 1 else w

/-- The loop `while ((w & 0x80000000) == 0 && pos < 32) { w <<= 1; pos++; }`, unrolled
`n` times.  It is only ever called with `n = 32 - pos`, the number of rounds after
which the guard `pos < 32` is false, so the case `n = 0` returns what the loop returns
(`shiftLoop_eq` states the equation of the source loop). -/
def shiftRounds : Nat → Nat → Nat → Nat
  | 0, _, pos => pos
  | n + 1, w, pos =>
    if w &&& 0x80000000 = 0 ∧ pos < 32 then shiftRounds n ((w <<< 1) % 2 ^ 32) (pos + 1)
    else pos

/-- The loop of `add` started on `w` with counter `pos`; its value is the final `pos`. -/
def shiftLoop (w pos : Nat) : Nat := shiftRounds (32 - pos) w pos

/-- The local `pos` of `add` after the loop, for the hash value `h`. -/
def pos (b h : Nat) : Nat := shiftLoop (w b h) 1

/-! ## HyperLogLog (the dense sketch) -/

/-- The fields of `class HyperLogLog`. -/
structure HyperLogLog where
  b : Nat
  q : Nat
  regs : List Nat
  hasher : HashFuncGen
  alpha : ℚ
deriving DecidableEq

/-- The state built by the constructor `HyperLogLog(bits)` with the given hasher:
`b(bits), q(1 << bits), regs(q, 0)` and the `alpha` table. -/
def HyperLogLog.init (bits : Nat) (hasher : HashFuncGen) : HyperLogLog :=
  { b := bits, q := 1 <<< bits, regs := List.replicate (1 <<< bits) 0,
    hasher := hasher, alpha := alphaFor (1 <<< bits) }

/-- The constructor `HyperLogLog(int bits)`.  The source has no check of `bits`; the
only thing that limits it is that `1 << bits` is a defined positive `int` for
`0 ≤ bits ≤ 30` only, and outside that range the embedding gives no state. -/
def HyperLogLog.new (bits : Int) (hasher : HashFuncGen) : Option HyperLogLog :=
  if 0 ≤ bits ∧ bits ≤ 30 then some (HyperLogLog.init bits.toNat hasher) else none

/-- The method `HyperLogLog::add`. -/
def HyperLogLog.add (s : HyperLogLog) (x : List (Fin 256)) : HyperLogLog :=
  let h := s.hasher.hash x
  if pos s.b h > s.regs.getD (ind s.b h) 0 then
    { s with regs := s.regs.set (ind s.b h) (pos s.b h) }
  else s

/-- The local `sum` of `HyperLogLog::estimate` after its loop over `i < q`. -/
def HyperLogLog.sum (s : HyperLogLog) : ℚ :=
  (List.range s.q).foldl (fun acc i => acc + 1 / 2 ^ (s.regs.getD i 0)) 0

/-- The local `zeros` of `HyperLogLog::estimate` after its loop over `i < q`. -/
def HyperLogLog.zeros (s : HyperLogLog) : Nat :=
  (List.range s.q).foldl (fun z i => if s.regs.getD i 0 = 0 then z + 1 else z) 0

/-- The first value of `est` in `HyperLogLog::estimate`: `alpha * q * q / sum`. -/
def HyperLogLog.raw (s : HyperLogLog) : ℚ := s.alpha * s.q * s.q / s.sum

/-- The method `HyperLogLog::estimate`, with `std::log` as the parameter `ln`. -/
def HyperLogLog.estimate (ln : ℚ → ℚ) (s : HyperLogLog) : ℚ :=
  let est := s.raw
  let est := if est ≤ 2.5 * s.q then
      (if s.zeros > 0 then s.q * ln ((s.q : ℚ) / s.zeros) else est)
    else est
  if est > 143165576.533 then -4294967296 * ln (1 - est / 4294967296) else est

/-- The method `HyperLogLog::memory_used`. -/
def HyperLogLog.memory_used (s : HyperLogLog) : Nat := s.q

/-- The method `HyperLogLog::reset`: `std::fill(regs.begin(), regs.end(), 0)`. -/
def HyperLogLog.reset (s : HyperLogLog) : HyperLogLog :=
  { s with regs := List.replicate s.regs.length 0 }

/-! ## HyperLogLogPlus (the hybrid sketch) -/

/-- The call `sparse_data.find(k)`: the value stored under `k`, if any. -/
def mapFind (k : Nat) : List (Nat × Nat) → Option Nat
  | [] => none
  | (k', v') :: t => if k = k' then some v' else mapFind k t

/-- The assignment `sparse_data[k] = v` on a `std::map`: the entry of `k` is
overwritten when present, and inserted at its place in key order otherwise. -/
def mapAssign (k v : Nat) : List (Nat × Nat) → List (Nat × Nat)
  | [] => [(k, v)]
  | (k', v') :: t =>
    if k < k' then (k, v) :: (k', v') :: t
    else if k = k' then (k, v) :: t
    else (k', v') :: mapAssign k v t

/-- The fields of `class HyperLogLogPlus`. -/
structure HyperLogLogPlus where
  b : Nat
  q : Nat
  sparse_mode : Bool
  sparse_data : List (Nat × Nat)
  dense_data : List Nat
  hasher : HashFuncGen
  alpha : ℚ
deriving DecidableEq

/-- The state built by the constructor `HyperLogLogPlus(bits)` with the given hasher:
`b(bits), q(1 << bits), sparse_mode(true), dense_data(q, 0)`, an empty map and the
`alpha` table. -/
def HyperLogLogPlus.init (bits : Nat) (hasher : HashFuncGen) : HyperLogLogPlus :=
  { b := bits, q := 1 <<< bits, sparse_mode := true, sparse_data := [],
    dense_data := List.replicate (1 <<< bits) 0, hasher := hasher,
    alpha := alphaFor (1 <<< bits) }

/-- The constructor `HyperLogLogPlus(int bits)`; as for `HyperLogLog.new`, the source
checks nothing and the embedding gives a state wherever `1 << bits` is defined. -/
def HyperLogLogPlus.new (bits : Int) (hasher : HashFuncGen) : Option HyperLogLogPlus :=
  if 0 ≤ bits ∧ bits ≤ 30 then some (HyperLogLogPlus.init bits.toNat hasher) else none

/-- One round of the loop of `to_dense`, for the map entry `(ind, val)`. -/
def denseStep (d : List Nat) (kv : Nat × Nat) : List Nat :=
  if kv.2 > d.getD kv.1 0 then d.set kv.1 kv.2 else d

/-- The method `HyperLogLogPlus::to_dense`. -/
def HyperLogLogPlus.to_dense (s : HyperLogLogPlus) : HyperLogLogPlus :=
  { s with
    dense_data := s.sparse_data.foldl denseStep (List.replicate s.q 0),
    sparse_data := [],
    sparse_mode := false }

/-- The upsert of the sparse branch of `add`:
`if (it == end || pos > it->second) sparse_data[ind] = pos`, the key being `ind`
converted to `uint16_t`. -/
def HyperLogLogPlus.upsert (s : HyperLogLogPlus) (i p : Nat) : HyperLogLogPlus :=
  match mapFind (i % 65536) s.sparse_data with
  | none => { s with sparse_data := mapAssign (i % 65536) p s.sparse_data }
  | some v =>
    if p > v then { s with sparse_data := mapAssign (i % 65536) p s.sparse_data } else s

/-- The method `HyperLogLogPlus::add`. -/
def HyperLogLogPlus.add (s : HyperLogLogPlus) (x : List (Fin 256)) : HyperLogLogPlus :=
  let h := s.hasher.hash x
  if s.sparse_mode then
    let s1 := s.upsert (ind s.b h) (pos s.b h)
    if s1.sparse_data.length * 4 > s1.q then s1.to_dense else s1
  else
    if pos s.b h > s.dense_data.getD (ind s.b h) 0 then
      { s with dense_data := s.dense_data.set (ind s.b h) (pos s.b h) }
    else s

/-- The local `sum` of the sparse branch of `HyperLogLogPlus::estimate`, after its
loop over the map entries. -/
def HyperLogLogPlus.sparseSum (s : HyperLogLogPlus) : ℚ :=
  s.sparse_data.foldl (fun acc kv => acc + 1 / 2 ^ kv.2) 0

/-- The local `sum` of the dense branch of `HyperLogLogPlus::estimate`. -/
def HyperLogLogPlus.denseSum (s : HyperLogLogPlus) : ℚ :=
  (List.range s.q).foldl (fun acc i => acc + 1 / 2 ^ (s.dense_data.getD i 0)) 0

/-- The local `zeros` of the dense branch of `HyperLogLogPlus::estimate`. -/
def HyperLogLogPlus.denseZeros (s : HyperLogLogPlus) : Nat :=
  (List.range s.q).foldl (fun z i => if s.dense_data.getD i 0 = 0 then z + 1 else z) 0

/-- The method `HyperLogLogPlus::estimate`, with `std::log` as the parameter `ln`. -/
def HyperLogLogPlus.estimate (ln : ℚ → ℚ) (s : HyperLogLogPlus) : ℚ :=
  if s.sparse_mode then
    if s.sparse_data.isEmpty then 0
    else
      let est := s.alpha * s.q * s.q / s.sparseSum
      if est ≤ 5 * s.q then
        let zeros : Int := (s.q : Int) - s.sparse_data.length
        if zeros > 0 then s.q * ln ((s.q : ℚ) / zeros) else est
      else est
  else
    let est := s.alpha * s.q * s.q / s.denseSum
    let est := if est ≤ 2.5 * s.q then
        (if s.denseZeros > 0 then s.q * ln ((s.q : ℚ) / s.denseZeros) else est)
      else est
    if est > 143165576.533 then -4294967296 * ln (1 - est / 4294967296) else est

/-- The method `HyperLogLogPlus::memory_used`. -/
def HyperLogLogPlus.memory_used (s : HyperLogLogPlus) : Nat :=
  if s.sparse_mode then s.sparse_data.length * 3 else s.q

/-- The method `HyperLogLogPlus::reset`. -/
def HyperLogLogPlus.reset (s : HyperLogLogPlus) : HyperLogLogPlus :=
  if s.sparse_mode then { s with sparse_data := [], sparse_mode := true }
  else { s with dense_data := List.replicate s.dense_data.length 0, sparse_mode := true }

/-! ## Reachable states and the notions the specification speaks of -/

/-- The states of a dense sketch built with precision `b` and hasher `g` that `add`
and `reset` calls can produce. -/
inductive HyperLogLog.Reachable (b : Nat) (g : HashFuncGen) : HyperLogLog → Prop
  | init : HyperLogLog.Reachable b g (HyperLogLog.init b g)
  | add (s : HyperLogLog) (x : List (Fin 256)) :
      HyperLogLog.Reachable b g s → HyperLogLog.Reachable b g (s.add x)
  | reset (s : HyperLogLog) :
      HyperLogLog.Reachable b g s → HyperLogLog.Reachable b g s.reset

/-- The states of a hybrid sketch built with precision `b` and hasher `g` that `add`
and `reset` calls can produce. -/
inductive HyperLogLogPlus.Reachable (b : Nat) (g : HashFuncGen) : HyperLogLogPlus → Prop
  | init : HyperLogLogPlus.Reachable b g (HyperLogLogPlus.init b g)
  | add (s : HyperLogLogPlus) (x : List (Fin 256)) :
      HyperLogLogPlus.Reachable b g s → HyperLogLogPlus.Reachable b g (s.add x)
  | reset (s : HyperLogLogPlus) :
      HyperLogLogPlus.Reachable b g s → HyperLogLogPlus.Reachable b g s.reset

/-- The specification's value of register `i` after the items `L`: the maximum rank
over the items of `L` whose index is `i`, and `0` when there is none. -/
def maxRankAt (b : Nat) (g : HashFuncGen) (L : List (List (Fin 256))) (i : Nat) : Nat :=
  ((L.filter (fun x => ind b (g.hash x) = i)).map (fun x => pos b (g.hash x))).foldr max 0

/-- The number of distinct indices that the items `L` populate. -/
def distinctIndices (b : Nat) (g : HashFuncGen) (L : List (List (Fin 256))) : Nat :=
  (L.map (fun x => ind b (g.hash x))).toFinset.card

/-- The representation invariant of the hybrid sketch built with precision `b` and
hasher `g`: the configuration is the constructed one; in sparse mode the map is in
strictly increasing key order, its keys are below `2^b`, its values are ranks, it has
at most `2^b / 4` entries and the dense array is all zero; in dense mode the map is
empty and the dense array holds zeros and ranks. -/
def HyperLogLogPlus.Inv (b : Nat) (g : HashFuncGen) (s : HyperLogLogPlus) : Prop :=
  s.b = b ∧ s.q = 2 ^ b ∧ s.hasher = g ∧ s.alpha = alphaFor (2 ^ b) ∧
  s.dense_data.length = 2 ^ b ∧
  (s.sparse_mode = true →
    s.sparse_data.Pairwise (fun x y => x.1 < y.1) ∧
    (∀ kv ∈ s.sparse_data, kv.1 < 2 ^ b ∧ ((1 ≤ kv.2 ∧ kv.2 ≤ 32 - b) ∨ kv.2 = 32)) ∧
    s.sparse_data.length * 4 ≤ 2 ^ b ∧
    s.dense_data = List.replicate (2 ^ b) 0) ∧
  (s.sparse_mode = false →
    s.sparse_data = [] ∧ ∀ v ∈ s.dense_data, v = 0 ∨ (1 ≤ v ∧ v ≤ 32 - b) ∨ v = 32)

/-- The number of leading zero bits of `w` read as a 32-bit word: the length of the
run of clear bits from bit 31 downwards. -/
def leadingZeros32 (w : Nat) : Nat :=
  ((List.range 32).takeWhile (fun i => !w.testBit (31 - i))).length

/-- The Horner accumulation carried out entirely modulo `2^32`, from the low 32 bits
of the two coefficients. -/
def hash32 (a c : Nat) (s : List (Fin 256)) : Nat :=
  s.foldl (fun h ch => (h * (a % 2 ^ 32) + ch.val) % 2 ^ 32) (c % 2 ^ 32)

/-- The register view of the hybrid sketch: in sparse mode the map entry of `i`, and
0 when there is none; in dense mode `dense_data[i]`. -/
def HyperLogLogPlus.register (s : HyperLogLogPlus) (i : Nat) : Nat :=
  if s.sparse_mode then (mapFind i s.sparse_data).getD 0 else s.dense_data.getD i 0

/-! ## Construction -/

theorem one_shiftLeft_eq (n : Nat) : 1 <<< n = 2 ^ n := by
  simp [Nat.shiftLeft_eq]

/-- C1 (as amended): neither constructor checks the precision.  For every `bits` from
0 to 30, inside `[4,16]` or not, construction succeeds and yields `2 ^ bits` zero
registers (for the hybrid sketch: sparse mode, an empty map and `2 ^ bits` zero
dense registers). -/
theorem construction_succeeds_unchecked (bits : Int) (g : HashFuncGen)
    (h0 : 0 ≤ bits) (h30 : bits ≤ 30) :
    (∃ s, HyperLogLog.new bits g = some s ∧ s.b = bits.toNat ∧ s.q = 2 ^ bits.toNat ∧
        s.regs = List.replicate (2 ^ bits.toNat) 0 ∧ s.hasher = g) ∧
    (∃ s, HyperLogLogPlus.new bits g = some s ∧ s.b = bits.toNat ∧ s.q = 2 ^ bits.toNat ∧
        s.sparse_mode = true ∧ s.sparse_data = [] ∧
        s.dense_data = List.replicate (2 ^ bits.toNat) 0 ∧ s.hasher = g) := by
  constructor
  · refine ⟨HyperLogLog.init bits.toNat g, ?_, ?_⟩
    · simp [HyperLogLog.new, h0, h30]
    · simp [HyperLogLog.init, one_shiftLeft_eq]
  · refine ⟨HyperLogLogPlus.init bits.toNat g, ?_, ?_⟩
    · simp [HyperLogLogPlus.new, h0, h30]
    · simp [HyperLogLogPlus.init, one_shiftLeft_eq]

/-- Witness of `construction_succeeds_unchecked` at precision 17. -/
theorem construction_succeeds_unchecked_witness :
    ((0 : Int) ≤ 17 ∧ (17 : Int) ≤ 30) ∧
    ((∃ s, HyperLogLog.new 17 (HashFuncGen.new 0 0) = some s ∧ s.b = (17 : Int).toNat ∧
        s.q = 2 ^ (17 : Int).toNat ∧
        s.regs = List.replicate (2 ^ (17 : Int).toNat) 0 ∧ s.hasher = HashFuncGen.new 0 0) ∧
    (∃ s, HyperLogLogPlus.new 17 (HashFuncGen.new 0 0) = some s ∧ s.b = (17 : Int).toNat ∧
        s.q = 2 ^ (17 : Int).toNat ∧
        s.sparse_mode = true ∧ s.sparse_data = [] ∧
        s.dense_data = List.replicate (2 ^ (17 : Int).toNat) 0 ∧
        s.hasher = HashFuncGen.new 0 0)) :=
  ⟨⟨by decide, by decide⟩,
    construction_succeeds_unchecked 17 (HashFuncGen.new 0 0) (by decide) (by decide)⟩

/-- C1 fails as stated: precision 3 lies outside `[4,16]`, and both constructors
return a sketch for it (8 zero registers; sparse mode with an empty map) instead of
failing. -/
theorem construction_rejects_counterexample :
    ¬ ((4 : Int) ≤ 3 ∧ (3 : Int) ≤ 16) ∧
    (HyperLogLog.new 3 (HashFuncGen.new 0 0)).map (fun s => (s.q, s.regs)) =
      some (8, [0, 0, 0, 0, 0, 0, 0, 0]) ∧
    (HyperLogLogPlus.new 3 (HashFuncGen.new 0 0)).map
        (fun s => (s.q, s.sparse_mode, s.sparse_data, s.dense_data)) =
      some (8, true, [], [0, 0, 0, 0, 0, 0, 0, 0]) := by
  refine ⟨by decide, ?_, ?_⟩
  · simp [HyperLogLog.new, HyperLogLog.init]
  · simp [HyperLogLogPlus.new, HyperLogLogPlus.init]

/-! ## The hash function -/

theorem foldl_take_eq_hornerAcc (g : HashFuncGen) (s : List (Fin 256)) :
    ∀ i, i ≤ s.length → (s.take i).foldl g.step g.b = hornerAcc g.a g.b s i := by
  intro i
  induction i with
  | zero => intro _; simp [hornerAcc]
  | succ i ih =>
    intro hi
    have hlt : i < s.length := hi
    rw [List.take_succ, List.foldl_append, ih (Nat.le_of_lt hlt)]
    simp [List.getElem?_eq_getElem hlt, hornerAcc, HashFuncGen.step, List.getD_eq_getElem?_getD]

/-- C2: for every multiplier `a`, additive constant `c` and byte string `s`, `hash s`
is the low 32 bits of the Horner accumulation `acc 0 = c`,
`acc (i+1) = (acc i * a + s[i]) mod 2^64` taken at `i = |s|`; the hash of the empty
string is `c mod 2^32` whatever `a` is. -/
theorem hash_eq_horner (a c : Nat) (s : List (Fin 256)) :
    (HashFuncGen.mk a c).hash s = hornerAcc a c s s.length % 2 ^ 32 ∧
    (HashFuncGen.mk a c).hash [] = c % 2 ^ 32 := by
  constructor
  · have h := foldl_take_eq_hornerAcc (HashFuncGen.mk a c) s s.length (Nat.le_refl _)
    rw [List.take_length] at h
    simp only [HashFuncGen.hash, h]
  · simp [HashFuncGen.hash]

/-! ## Index and rank arithmetic -/

theorem hash_lt (g : HashFuncGen) (s : List (Fin 256)) : g.hash s < 2 ^ 32 :=
  Nat.mod_lt _ (by norm_num)

theorem ind_lt (b h : Nat) (hb : b ≤ 32) (hh : h < 2 ^ 32) : ind b h < 2 ^ b := by
  unfold ind
  rw [Nat.shiftRight_eq_div_pow, Nat.div_lt_iff_lt_mul (by positivity)]
  calc h < 2 ^ 32 := hh
    _ = 2 ^ b * 2 ^ (32 - b) := by rw [← pow_add]; congr 1; omega

theorem and_top_bit_eq_zero_iff (w : Nat) (hw : w < 2 ^ 32) :
    w &&& 0x80000000 = 0 ↔ w < 2 ^ 31 := by
  have e : (0x80000000 : Nat) = 2 ^ 31 := by norm_num
  rw [e]
  constructor
  · intro h
    by_contra hge
    have hge : 2 ^ 31 ≤ w := Nat.le_of_not_lt hge
    have hbit : w.testBit 31 = true := by
      rw [Nat.testBit_to_div_mod]
      have : w / 2 ^ 31 = 1 := by omega
      rw [this]; rfl
    have h2 : (w &&& 2 ^ 31).testBit 31 = true := by
      rw [Nat.testBit_and, hbit, Nat.testBit_two_pow_self]; rfl
    rw [h] at h2
    simp at h2
  · intro h
    apply Nat.eq_of_testBit_eq
    intro i
    rw [Nat.testBit_and, Nat.zero_testBit, Nat.testBit_two_pow]
    by_cases hi : 31 = i
    · subst hi
      simp [Nat.testBit_lt_two_pow h]
    · simp [hi]

/-- The equation of the source loop: one test of the guard, then either one round
and the loop again, or the current `pos`. -/
theorem shiftLoop_eq (w pos : Nat) :
    shiftLoop w pos =
      if w &&& 0x80000000 = 0 ∧ pos < 32 then shiftLoop ((w <<< 1) % 2 ^ 32) (pos + 1)
      else pos := by
  unfold shiftLoop
  cases h : 32 - pos with
  | zero =>
    have : ¬ pos < 32 := by omega
    simp [shiftRounds, this]
  | succ n =>
    have : 32 - (pos + 1) = n := by omega
    simp [shiftRounds, this]

theorem shiftRounds_ge (n : Nat) : ∀ w pos, pos ≤ shiftRounds n w pos := by
  induction n with
  | zero => intro w pos; simp [shiftRounds]
  | succ n ih =>
    intro w pos
    simp only [shiftRounds]
    split
    · exact Nat.le_trans (Nat.le_succ pos) (ih _ _)
    · exact Nat.le_refl _

theorem shiftRounds_le_max (n : Nat) : ∀ w pos, shiftRounds n w pos ≤ max pos 32 := by
  induction n with
  | zero => intro w pos; simp [shiftRounds]
  | succ n ih =>
    intro w pos
    simp only [shiftRounds]
    split
    · rename_i hc
      have := ih ((w <<< 1) % 2 ^ 32) (pos + 1)
      have h32 : pos < 32 := hc.2
      omega
    · exact Nat.le_max_left _ _

theorem shiftRounds_le (n : Nat) :
    ∀ w pos k, w < 2 ^ 32 → k ≤ 31 → 2 ^ (31 - k) ≤ w → shiftRounds n w pos ≤ pos + k := by
  induction n with
  | zero => intro w pos k _ _ _; simp [shiftRounds]
  | succ n ih =>
    intro w pos k hw hk hle
    simp only [shiftRounds]
    split
    · rename_i hc
      have hlt : w < 2 ^ 31 := (and_top_bit_eq_zero_iff w hw).1 hc.1
      have hk1 : 1 ≤ k := by
        by_contra h0
        have : k = 0 := by omega
        subst this
        simp at hle
        omega
      have hw2 : (w <<< 1) % 2 ^ 32 = 2 * w := by
        rw [Nat.shiftLeft_eq, Nat.mod_eq_of_lt] <;> omega
      have hpow : 2 ^ (31 - (k - 1)) = 2 * 2 ^ (31 - k) := by
        rw [← pow_succ']; congr 1; omega
      have := ih (2 * w) (pos + 1) (k - 1) (by omega) (by omega) (by rw [hpow]; omega)
      rw [hw2]
      omega
    · omega

theorem pos_ge_one (b h : Nat) : 1 ≤ pos b h := shiftRounds_ge _ _ _

theorem pos_le (b h : Nat) : pos b h ≤ 32 := by
  have := shiftRounds_le_max (32 - 1) (w b h) 1
  simpa [pos, shiftLoop] using this

/-- The rank of a hash value is at most `32 - b` when the remainder `h << b` is not
zero, and exactly 32 when it is. -/
theorem pos_range (b h : Nat) (hb : b ≤ 31) : pos b h ≤ 32 - b ∨ pos b h = 32 := by
  by_cases hr : (h <<< b) % 2 ^ 32 = 0
  · right
    have hw : w b h = 1 := by
      unfold w
      exact if_pos hr
    simp only [pos, hw]
    decide
  · left
    have hw : w b h = (h <<< b) % 2 ^ 32 := by
      unfold w
      exact if_neg hr
    have hdvd : 2 ^ b ∣ (h <<< b) % 2 ^ 32 := by
      rw [Nat.shiftLeft_eq]
      have h1 : 2 ^ b ∣ 2 ^ 32 := pow_dvd_pow 2 (by omega)
      exact (Nat.dvd_mod_iff h1).2 (Dvd.intro_left h rfl)
    have hge : 2 ^ b ≤ (h <<< b) % 2 ^ 32 := Nat.le_of_dvd (Nat.pos_of_ne_zero hr) hdvd
    have hlt : (h <<< b) % 2 ^ 32 < 2 ^ 32 := Nat.mod_lt _ (by norm_num)
    have hk : 2 ^ (31 - (31 - b)) ≤ (h <<< b) % 2 ^ 32 := by
      have : 31 - (31 - b) = b := by omega
      rw [this]; exact hge
    have := shiftRounds_le (32 - 1) _ 1 (31 - b) hlt (by omega) hk
    simp only [pos, shiftLoop, hw]
    omega

/-! ## Register arrays -/

theorem length_denseStep (d : List Nat) (kv : Nat × Nat) :
    (denseStep d kv).length = d.length := by
  unfold denseStep
  split <;> simp

theorem getD_denseStep (d : List Nat) (kv : Nat × Nat) (j : Nat) (hj : j < d.length) :
    (denseStep d kv).getD j 0 = if kv.1 = j then max (d.getD j 0) kv.2 else d.getD j 0 := by
  unfold denseStep
  by_cases hk : kv.1 = j
  · subst hk
    by_cases hgt : kv.2 > d.getD kv.1 0
    · simp only [hgt, if_true]
      rw [List.getD_eq_getElem?_getD, List.getElem?_set]
      simp only [if_true, hj, Option.getD_some]
      omega
    · simp only [hgt, if_false, if_true]
      omega
  · by_cases hgt : kv.2 > d.getD kv.1 0
    · simp only [hgt, if_true, hk, if_false]
      rw [List.getD_eq_getElem?_getD, List.getD_eq_getElem?_getD, List.getElem?_set_ne hk]
    · simp only [hgt, if_false, hk]

theorem mem_denseStep (d : List Nat) (kv : Nat × Nat) (v : Nat) (hv : v ∈ denseStep d kv) :
    v ∈ d ∨ v = kv.2 := by
  unfold denseStep at hv
  split at hv
  · rcases List.mem_or_eq_of_mem_set hv with h | h
    · exact Or.inl h
    · exact Or.inr h
  · exact Or.inl hv

/-! ## The dense sketch -/

theorem HyperLogLog.add_eq (s : HyperLogLog) (x : List (Fin 256)) :
    s.add x =
      { s with regs := denseStep s.regs (ind s.b (s.hasher.hash x), pos s.b (s.hasher.hash x)) } := by
  unfold HyperLogLog.add denseStep
  simp only []
  split <;> rfl

theorem HyperLogLog.add_b (s : HyperLogLog) (x : List (Fin 256)) : (s.add x).b = s.b := by
  rw [HyperLogLog.add_eq]

theorem HyperLogLog.add_q (s : HyperLogLog) (x : List (Fin 256)) : (s.add x).q = s.q := by
  rw [HyperLogLog.add_eq]

theorem HyperLogLog.add_hasher (s : HyperLogLog) (x : List (Fin 256)) :
    (s.add x).hasher = s.hasher := by
  rw [HyperLogLog.add_eq]

theorem HyperLogLog.add_alpha (s : HyperLogLog) (x : List (Fin 256)) :
    (s.add x).alpha = s.alpha := by
  rw [HyperLogLog.add_eq]

theorem HyperLogLog.add_length (s : HyperLogLog) (x : List (Fin 256)) :
    (s.add x).regs.length = s.regs.length := by
  rw [HyperLogLog.add_eq]
  exact length_denseStep _ _

/-- The register-wise effect of one `add` of the dense sketch. -/
theorem HyperLogLog.add_getD (s : HyperLogLog) (x : List (Fin 256)) (i : Nat)
    (hi : i < s.regs.length) :
    (s.add x).regs.getD i 0 =
      if ind s.b (s.hasher.hash x) = i then max (s.regs.getD i 0) (pos s.b (s.hasher.hash x))
      else s.regs.getD i 0 := by
  rw [HyperLogLog.add_eq]
  exact getD_denseStep _ _ i hi

theorem maxRankAt_cons (b : Nat) (g : HashFuncGen) (x : List (Fin 256))
    (L : List (List (Fin 256))) (i : Nat) :
    maxRankAt b g (x :: L) i =
      if ind b (g.hash x) = i then max (pos b (g.hash x)) (maxRankAt b g L i)
      else maxRankAt b g L i := by
  unfold maxRankAt
  by_cases h : ind b (g.hash x) = i
  · simp [List.filter_cons, h]
  · simp [List.filter_cons, h]

theorem HyperLogLog.foldl_add_getD (b : Nat) (g : HashFuncGen) (L : List (List (Fin 256))) :
    ∀ (s : HyperLogLog) (i : Nat), s.b = b → s.hasher = g → i < s.regs.length →
      (L.foldl HyperLogLog.add s).regs.getD i 0 = max (s.regs.getD i 0) (maxRankAt b g L i) := by
  induction L with
  | nil => intro s i _ _ _; simp [maxRankAt]
  | cons x L ih =>
    intro s i hb hg hi
    rw [List.foldl_cons,
      ih (s.add x) i (by rw [HyperLogLog.add_b, hb]) (by rw [HyperLogLog.add_hasher, hg])
        (by rw [HyperLogLog.add_length]; exact hi),
      HyperLogLog.add_getD s x i hi, maxRankAt_cons, hb, hg]
    split <;> omega

/-- What every reachable state of the dense sketch satisfies. -/
theorem HyperLogLog.dense_reachable_inv (b : Nat) (g : HashFuncGen) (hb : b ≤ 31) (s : HyperLogLog)
    (hs : HyperLogLog.Reachable b g s) :
    s.b = b ∧ s.q = 2 ^ b ∧ s.regs.length = 2 ^ b ∧ s.hasher = g ∧
      s.alpha = alphaFor (2 ^ b) ∧
      ∀ v ∈ s.regs, v = 0 ∨ (1 ≤ v ∧ v ≤ 32 - b) ∨ v = 32 := by
  induction hs with
  | init =>
    refine ⟨rfl, one_shiftLeft_eq b, ?_, rfl, ?_, ?_⟩
    · simp [HyperLogLog.init, one_shiftLeft_eq]
    · simp [HyperLogLog.init, one_shiftLeft_eq]
    · intro v hv
      left
      exact (List.mem_replicate.1 hv).2
  | add s x _ ih =>
    obtain ⟨h1, h2, h3, h4, h5, h6⟩ := ih
    refine ⟨by rw [HyperLogLog.add_b, h1], by rw [HyperLogLog.add_q, h2],
      by rw [HyperLogLog.add_length, h3], by rw [HyperLogLog.add_hasher, h4],
      by rw [HyperLogLog.add_alpha, h5], ?_⟩
    intro v hv
    rw [HyperLogLog.add_eq] at hv
    rcases mem_denseStep _ _ v hv with h | h
    · exact h6 v h
    · right
      simp only at h
      rw [h, h1]
      rcases pos_range b (s.hasher.hash x) hb with hp | hp
      · exact Or.inl ⟨pos_ge_one _ _, hp⟩
      · exact Or.inr hp
  | reset s _ ih =>
    obtain ⟨h1, h2, h3, h4, h5, _⟩ := ih
    refine ⟨h1, h2, ?_, h4, h5, ?_⟩
    · simp [HyperLogLog.reset, h3]
    · intro v hv
      left
      exact (List.mem_replicate.1 hv).2

theorem HyperLogLog.dense_reachable_foldl (b : Nat) (g : HashFuncGen) (L : List (List (Fin 256))) :
    ∀ s, HyperLogLog.Reachable b g s → HyperLogLog.Reachable b g (L.foldl HyperLogLog.add s) := by
  induction L with
  | nil => intro s hs; exact hs
  | cons x L ih => intro s hs; exact ih _ (HyperLogLog.Reachable.add s x hs)

/-- On a reachable state `reset` gives back the freshly constructed sketch. -/
theorem HyperLogLog.dense_reset_eq_init (b : Nat) (g : HashFuncGen) (hb : b ≤ 31) (s : HyperLogLog)
    (hs : HyperLogLog.Reachable b g s) : s.reset = HyperLogLog.init b g := by
  obtain ⟨h1, h2, h3, h4, h5, _⟩ := HyperLogLog.dense_reachable_inv b g hb s hs
  cases s
  simp only [HyperLogLog.reset, HyperLogLog.init, one_shiftLeft_eq] at *
  simp [h1, h2, h3, h4, h5]

/-- C3: for `b` in `[4,16]`, any hasher and any list `L` of strings, after `add` of
each element of `L` to a freshly constructed dense sketch, or to one that was reset
after earlier insertions `L0`, register `i` (`i < 2^b`) holds the maximum rank over
the items of `L` whose index is `i`, and `0` if no item of `L` has index `i`. -/
theorem dense_register_is_max_rank (b : Nat) (g : HashFuncGen)
    (L L0 : List (List (Fin 256))) (i : Nat) (hb4 : 4 ≤ b) (hb16 : b ≤ 16) (hi : i < 2 ^ b) :
    (L.foldl HyperLogLog.add (HyperLogLog.init b g)).regs.getD i 0 = maxRankAt b g L i ∧
    (L.foldl HyperLogLog.add
        (L0.foldl HyperLogLog.add (HyperLogLog.init b g)).reset).regs.getD i 0
      = maxRankAt b g L i ∧
    ((∀ x ∈ L, ind b (g.hash x) ≠ i) →
      (L.foldl HyperLogLog.add (HyperLogLog.init b g)).regs.getD i 0 = 0) := by
  have hb : 4 ≤ b ∧ b ≤ 31 := ⟨hb4, by omega⟩
  have hfresh : (L.foldl HyperLogLog.add (HyperLogLog.init b g)).regs.getD i 0
      = maxRankAt b g L i := by
    rw [HyperLogLog.foldl_add_getD b g L (HyperLogLog.init b g) i rfl rfl
      (by simp [HyperLogLog.init, one_shiftLeft_eq, hi])]
    simp [HyperLogLog.init, one_shiftLeft_eq, hi]
  refine ⟨hfresh, ?_, ?_⟩
  · rw [HyperLogLog.dense_reset_eq_init b g hb.2 _
      (HyperLogLog.dense_reachable_foldl b g L0 _ HyperLogLog.Reachable.init)]
    exact hfresh
  · intro hno
    rw [hfresh]
    unfold maxRankAt
    have : L.filter (fun x => ind b (g.hash x) = i) = [] := by
      rw [List.filter_eq_nil_iff]
      intro x hx
      simpa using hno x hx
    simp [this]

/-! ## The sparse map -/

theorem mapFind_mapAssign (k v : Nat) (l : List (Nat × Nat)) (j : Nat) :
    mapFind j (mapAssign k v l) = if j = k then some v else mapFind j l := by
  induction l with
  | nil => simp [mapAssign, mapFind]
  | cons hd t ih =>
    obtain ⟨k', v'⟩ := hd
    simp only [mapAssign]
    by_cases h1 : k < k'
    · simp only [h1, if_true, mapFind]
    · by_cases h2 : k = k'
      · subst h2
        simp only [h1, if_false, if_true, mapFind]
        by_cases h3 : j = k <;> simp [h3]
      · simp only [h1, h2, if_false, mapFind, ih]
        by_cases h3 : j = k'
        · have : j ≠ k := fun e => h2 (e ▸ h3)
          simp [h3, this, Ne.symm h2]
        · simp [h3]

theorem mem_mapAssign (k v : Nat) (l : List (Nat × Nat)) (kv : Nat × Nat)
    (h : kv ∈ mapAssign k v l) : kv = (k, v) ∨ kv ∈ l := by
  induction l with
  | nil => simpa [mapAssign] using h
  | cons hd t ih =>
    obtain ⟨k', v'⟩ := hd
    simp only [mapAssign] at h
    by_cases h1 : k < k'
    · simp only [h1, if_true, List.mem_cons] at h
      rcases h with h | h | h
      · exact Or.inl h
      · exact Or.inr (by simp [h])
      · exact Or.inr (by simp [h])
    · by_cases h2 : k = k'
      · subst h2
        simp only [Nat.lt_irrefl, if_false, if_true, List.mem_cons] at h
        rcases h with h | h
        · exact Or.inl h
        · exact Or.inr (by simp [h])
      · simp only [h1, h2, if_false, List.mem_cons] at h
        rcases h with h | h
        · exact Or.inr (by simp [h])
        · rcases ih h with h | h
          · exact Or.inl h
          · exact Or.inr (by simp [h])

theorem mapFind_mem (k v : Nat) (l : List (Nat × Nat)) (h : mapFind k l = some v) :
    (k, v) ∈ l := by
  induction l with
  | nil => simp [mapFind] at h
  | cons hd t ih =>
    obtain ⟨k', v'⟩ := hd
    simp only [mapFind] at h
    by_cases h1 : k = k'
    · simp only [h1, if_true, Option.some.injEq] at h
      simp [h1, h]
    · simp only [h1, if_false] at h
      exact List.mem_cons_of_mem _ (ih h)

theorem mapFind_eq_none_iff (k : Nat) (l : List (Nat × Nat)) :
    mapFind k l = none ↔ k ∉ l.map Prod.fst := by
  induction l with
  | nil => simp [mapFind]
  | cons hd t ih =>
    obtain ⟨k', v'⟩ := hd
    simp only [mapFind, List.map_cons, List.mem_cons]
    by_cases h1 : k = k'
    · simp [h1]
    · simp [h1, ih]

theorem keys_mapAssign (k v : Nat) (l : List (Nat × Nat)) :
    ((mapAssign k v l).map Prod.fst).toFinset = insert k (l.map Prod.fst).toFinset := by
  induction l with
  | nil => simp [mapAssign]
  | cons hd t ih =>
    obtain ⟨k', v'⟩ := hd
    simp only [mapAssign]
    by_cases h1 : k < k'
    · simp [h1]
    · by_cases h2 : k = k'
      · simp [h1, h2]
      · simp only [h1, h2, if_false, List.map_cons, List.toFinset_cons, ih]
        exact Finset.Insert.comm _ _ _

theorem sorted_mapAssign (k v : Nat) (l : List (Nat × Nat))
    (hl : l.Pairwise (fun x y => x.1 < y.1)) :
    (mapAssign k v l).Pairwise (fun x y => x.1 < y.1) := by
  induction l with
  | nil => simp [mapAssign]
  | cons hd t ih =>
    obtain ⟨k', v'⟩ := hd
    rw [List.pairwise_cons] at hl
    simp only [mapAssign]
    by_cases h1 : k < k'
    · simp only [h1, if_true]
      rw [List.pairwise_cons]
      refine ⟨?_, List.pairwise_cons.2 hl⟩
      intro y hy
      rcases List.mem_cons.1 hy with h | h
      · rw [h]; exact h1
      · exact Nat.lt_trans h1 (hl.1 y h)
    · by_cases h2 : k = k'
      · subst h2
        simp only [Nat.lt_irrefl, if_false, if_true]
        rw [List.pairwise_cons]
        exact ⟨fun y hy => hl.1 y hy, hl.2⟩
      · simp only [h1, h2, if_false]
        rw [List.pairwise_cons]
        refine ⟨?_, ih hl.2⟩
        intro y hy
        rcases mem_mapAssign k v t y hy with h | h
        · rw [h]; show k' < k; omega
        · exact hl.1 y h

theorem length_mapAssign (k v : Nat) (l : List (Nat × Nat))
    (hl : l.Pairwise (fun x y => x.1 < y.1)) :
    (mapAssign k v l).length = if mapFind k l = none then l.length + 1 else l.length := by
  induction l with
  | nil => simp [mapAssign, mapFind]
  | cons hd t ih =>
    obtain ⟨k', v'⟩ := hd
    rw [List.pairwise_cons] at hl
    simp only [mapAssign, mapFind]
    by_cases h1 : k < k'
    · have hne : k ≠ k' := Nat.ne_of_lt h1
      have hnone : mapFind k t = none := by
        rw [mapFind_eq_none_iff]
        intro hmem
        obtain ⟨y, hy, hyk⟩ := List.mem_map.1 hmem
        have := hl.1 y hy
        simp only at this
        omega
      simp [h1, hne, hnone]
    · by_cases h2 : k = k'
      · simp [h1, h2]
      · simp only [h1, h2, if_false, List.length_cons, ih hl.2]
        split <;> rfl

theorem length_eq_card_keys (l : List (Nat × Nat))
    (hl : l.Pairwise (fun x y => x.1 < y.1)) :
    l.length = (l.map Prod.fst).toFinset.card := by
  have hnd : (l.map Prod.fst).Nodup := by
    rw [List.Nodup, List.pairwise_map]
    exact hl.imp (fun h => Nat.ne_of_lt h)
  rw [List.toFinset_card_of_nodup hnd, List.length_map]

/-! ## The loop of `to_dense` -/

theorem length_foldl_denseStep (l : List (Nat × Nat)) :
    ∀ d : List Nat, (l.foldl denseStep d).length = d.length := by
  induction l with
  | nil => intro d; rfl
  | cons kv t ih => intro d; rw [List.foldl_cons, ih, length_denseStep]

theorem mem_foldl_denseStep (l : List (Nat × Nat)) :
    ∀ (d : List Nat) (v : Nat), v ∈ l.foldl denseStep d → v ∈ d ∨ ∃ kv ∈ l, v = kv.2 := by
  induction l with
  | nil => intro d v h; exact Or.inl h
  | cons kv t ih =>
    intro d v h
    rw [List.foldl_cons] at h
    rcases ih _ v h with h | ⟨kv', hm, he⟩
    · rcases mem_denseStep d kv v h with h | h
      · exact Or.inl h
      · exact Or.inr ⟨kv, by simp, h⟩
    · exact Or.inr ⟨kv', by simp [hm], he⟩

/-! ## The hybrid sketch -/

theorem HyperLogLogPlus.upsert_cases (s : HyperLogLogPlus) (i p : Nat) :
    (s.upsert i p = { s with sparse_data := mapAssign (i % 65536) p s.sparse_data } ∧
      (mapFind (i % 65536) s.sparse_data = none ∨
        ∃ v, mapFind (i % 65536) s.sparse_data = some v ∧ v < p)) ∨
    (s.upsert i p = s ∧ ∃ v, mapFind (i % 65536) s.sparse_data = some v ∧ p ≤ v) := by
  unfold HyperLogLogPlus.upsert
  cases h : mapFind (i % 65536) s.sparse_data with
  | none => exact Or.inl ⟨rfl, Or.inl rfl⟩
  | some v =>
    by_cases hp : p > v
    · exact Or.inl ⟨if_pos hp, Or.inr ⟨v, rfl, hp⟩⟩
    · exact Or.inr ⟨if_neg hp, v, rfl, Nat.le_of_not_lt hp⟩

theorem HyperLogLogPlus.upsert_fields (s : HyperLogLogPlus) (i p : Nat) :
    (s.upsert i p).b = s.b ∧ (s.upsert i p).q = s.q ∧
    (s.upsert i p).sparse_mode = s.sparse_mode ∧
    (s.upsert i p).dense_data = s.dense_data ∧ (s.upsert i p).hasher = s.hasher ∧
    (s.upsert i p).alpha = s.alpha := by
  rcases HyperLogLogPlus.upsert_cases s i p with ⟨h, _⟩ | ⟨h, _⟩ <;> rw [h] <;> simp

theorem HyperLogLogPlus.upsert_mem (s : HyperLogLogPlus) (i p : Nat) (kv : Nat × Nat)
    (hkv : kv ∈ (s.upsert i p).sparse_data) : kv = (i % 65536, p) ∨ kv ∈ s.sparse_data := by
  rcases HyperLogLogPlus.upsert_cases s i p with ⟨h, _⟩ | ⟨h, _⟩
  · rw [h] at hkv
    exact mem_mapAssign _ _ _ _ hkv
  · rw [h] at hkv
    exact Or.inr hkv

theorem HyperLogLogPlus.upsert_sorted (s : HyperLogLogPlus) (i p : Nat)
    (hs : s.sparse_data.Pairwise (fun x y => x.1 < y.1)) :
    (s.upsert i p).sparse_data.Pairwise (fun x y => x.1 < y.1) := by
  rcases HyperLogLogPlus.upsert_cases s i p with ⟨h, _⟩ | ⟨h, _⟩
  · rw [h]
    exact sorted_mapAssign _ _ _ hs
  · rw [h]; exact hs

theorem HyperLogLogPlus.upsert_keys (s : HyperLogLogPlus) (i p : Nat) :
    ((s.upsert i p).sparse_data.map Prod.fst).toFinset =
      insert (i % 65536) (s.sparse_data.map Prod.fst).toFinset := by
  rcases HyperLogLogPlus.upsert_cases s i p with ⟨h, _⟩ | ⟨h, v, hv, _⟩
  · rw [h]
    exact keys_mapAssign _ _ _
  · rw [h]
    have hmem : i % 65536 ∈ (s.sparse_data.map Prod.fst).toFinset := by
      rw [List.mem_toFinset]
      exact List.mem_map.2 ⟨(i % 65536, v), mapFind_mem _ _ _ hv, rfl⟩
    exact (Finset.insert_eq_of_mem hmem).symm

theorem HyperLogLogPlus.add_sparse (s : HyperLogLogPlus) (x : List (Fin 256))
    (hm : s.sparse_mode = true) :
    s.add x =
      if (s.upsert (ind s.b (s.hasher.hash x)) (pos s.b (s.hasher.hash x))).sparse_data.length * 4
          > s.q
      then (s.upsert (ind s.b (s.hasher.hash x)) (pos s.b (s.hasher.hash x))).to_dense
      else s.upsert (ind s.b (s.hasher.hash x)) (pos s.b (s.hasher.hash x)) := by
  unfold HyperLogLogPlus.add
  simp only [hm, if_true, (HyperLogLogPlus.upsert_fields s _ _).2.1]

theorem HyperLogLogPlus.add_dense (s : HyperLogLogPlus) (x : List (Fin 256))
    (hm : s.sparse_mode = false) :
    s.add x =
      { s with dense_data :=
          denseStep s.dense_data (ind s.b (s.hasher.hash x), pos s.b (s.hasher.hash x)) } := by
  cases s
  simp only at hm
  subst hm
  unfold HyperLogLogPlus.add denseStep
  simp only [Bool.false_eq_true, if_false]
  split <;> rfl

theorem HyperLogLogPlus.inv_init (b : Nat) (g : HashFuncGen) :
    HyperLogLogPlus.Inv b g (HyperLogLogPlus.init b g) := by
  refine ⟨rfl, one_shiftLeft_eq b, rfl, ?_, ?_, ?_, ?_⟩
  · simp [HyperLogLogPlus.init, one_shiftLeft_eq]
  · simp [HyperLogLogPlus.init, one_shiftLeft_eq]
  · intro _
    simp [HyperLogLogPlus.init, one_shiftLeft_eq]
  · intro h
    simp [HyperLogLogPlus.init] at h

theorem HyperLogLogPlus.inv_add (b : Nat) (g : HashFuncGen) (hb : b ≤ 16)
    (s : HyperLogLogPlus) (x : List (Fin 256)) (hs : HyperLogLogPlus.Inv b g s) :
    HyperLogLogPlus.Inv b g (s.add x) := by
  obtain ⟨h1, h2, h3, h4, h5, h6, h7⟩ := hs
  have hrank : (1 ≤ pos b (g.hash x) ∧ pos b (g.hash x) ≤ 32 - b) ∨ pos b (g.hash x) = 32 := by
    rcases pos_range b (g.hash x) (by omega) with hp | hp
    · exact Or.inl ⟨pos_ge_one _ _, hp⟩
    · exact Or.inr hp
  have hind : ind b (g.hash x) < 2 ^ b := ind_lt b _ (by omega) (hash_lt g x)
  have hpow : 2 ^ b ≤ 65536 := by
    calc 2 ^ b ≤ 2 ^ 16 := Nat.pow_le_pow_right (by norm_num) hb
      _ = 65536 := by norm_num
  have hkey : ind b (g.hash x) % 65536 = ind b (g.hash x) := Nat.mod_eq_of_lt (by omega)
  cases hm : s.sparse_mode with
  | true =>
    obtain ⟨hsort, hkv, _, hzero⟩ := h6 hm
    obtain ⟨u1, u2, u3, u4, u5, u6⟩ :=
      HyperLogLogPlus.upsert_fields s (ind s.b (s.hasher.hash x)) (pos s.b (s.hasher.hash x))
    have usort := HyperLogLogPlus.upsert_sorted s (ind s.b (s.hasher.hash x))
      (pos s.b (s.hasher.hash x)) hsort
    have ukv : ∀ kv ∈ (s.upsert (ind s.b (s.hasher.hash x))
        (pos s.b (s.hasher.hash x))).sparse_data,
        kv.1 < 2 ^ b ∧ ((1 ≤ kv.2 ∧ kv.2 ≤ 32 - b) ∨ kv.2 = 32) := by
      intro kv hmem
      rcases HyperLogLogPlus.upsert_mem s _ _ kv hmem with h | h
      · rw [h, h1, h3, hkey]
        exact ⟨hind, hrank⟩
      · exact hkv kv h
    rw [HyperLogLogPlus.add_sparse s x hm]
    split
    · refine ⟨u1.trans h1, u2.trans h2, u5.trans h3, u6.trans h4, ?_, ?_, ?_⟩
      · simp [HyperLogLogPlus.to_dense, length_foldl_denseStep, u2, h2]
      · intro hc
        simp [HyperLogLogPlus.to_dense] at hc
      · intro _
        refine ⟨rfl, ?_⟩
        intro v hv
        rcases mem_foldl_denseStep _ _ v hv with h | ⟨kv, hmem, he⟩
        · exact Or.inl (List.mem_replicate.1 h).2
        · rw [he]
          exact Or.inr (ukv kv hmem).2
    · rename_i hnot
      refine ⟨u1.trans h1, u2.trans h2, u5.trans h3, u6.trans h4, by rw [u4, h5], ?_, ?_⟩
      · intro _
        refine ⟨usort, ukv, ?_, by rw [u4, hzero]⟩
        rw [h2] at hnot
        omega
      · intro hc
        rw [u3, hm] at hc
        cases hc
  | false =>
    obtain ⟨hnil, hvals⟩ := h7 hm
    rw [HyperLogLogPlus.add_dense s x hm]
    refine ⟨h1, h2, h3, h4, ?_, ?_, ?_⟩
    · simp only [length_denseStep]
      exact h5
    · intro hc
      simp only at hc
      rw [hm] at hc
      cases hc
    · intro _
      refine ⟨hnil, ?_⟩
      intro v hv
      rcases mem_denseStep _ _ v hv with h | h
      · exact hvals v h
      · simp only at h
        rw [h, h1, h3]
        exact Or.inr hrank

theorem HyperLogLogPlus.reset_eq_init (b : Nat) (g : HashFuncGen) (s : HyperLogLogPlus)
    (hs : HyperLogLogPlus.Inv b g s) : s.reset = HyperLogLogPlus.init b g := by
  obtain ⟨h1, h2, h3, h4, h5, h6, h7⟩ := hs
  cases hm : s.sparse_mode with
  | true =>
    obtain ⟨_, _, _, hzero⟩ := h6 hm
    cases s
    simp only [HyperLogLogPlus.reset, HyperLogLogPlus.init, one_shiftLeft_eq] at *
    simp [hm, h1, h2, h3, h4, hzero]
  | false =>
    obtain ⟨hnil, _⟩ := h7 hm
    cases s
    simp only [HyperLogLogPlus.reset, HyperLogLogPlus.init, one_shiftLeft_eq] at *
    simp [hm, h1, h2, h3, h4, h5, hnil]

/-- Every reachable state of the hybrid sketch satisfies the representation
invariant. -/
theorem HyperLogLogPlus.reachable_inv (b : Nat) (g : HashFuncGen) (hb : b ≤ 16)
    (s : HyperLogLogPlus) (hs : HyperLogLogPlus.Reachable b g s) :
    HyperLogLogPlus.Inv b g s := by
  induction hs with
  | init => exact HyperLogLogPlus.inv_init b g
  | add s x _ ih => exact HyperLogLogPlus.inv_add b g hb s x ih
  | reset s _ ih =>
    rw [HyperLogLogPlus.reset_eq_init b g s ih]
    exact HyperLogLogPlus.inv_init b g

theorem HyperLogLogPlus.reachable_foldl (b : Nat) (g : HashFuncGen)
    (L : List (List (Fin 256))) :
    ∀ s, HyperLogLogPlus.Reachable b g s →
      HyperLogLogPlus.Reachable b g (L.foldl HyperLogLogPlus.add s) := by
  induction L with
  | nil => intro s hs; exact hs
  | cons x L ih => intro s hs; exact ih _ (HyperLogLogPlus.Reachable.add s x hs)

/-! ## Bounds on indices and ranks -/

/-- C4: for `b` in `[4,16]` the index `h >> (32 - b)` of every 32-bit hash value is
below `2^b`; in every reachable state the register access of `add` is inside `regs`
(dense sketch) and inside `dense_data` (hybrid sketch), the conversion of the index to
the 16-bit key type changes nothing, and every key of the sparse map is below `2^b`
(so inside `dense_data` when `to_dense` reads it). -/
theorem index_in_bounds (b : Nat) (g : HashFuncGen) (hb4 : 4 ≤ b) (hb16 : b ≤ 16) :
    (∀ h, h < 2 ^ 32 → ind b h < 2 ^ b) ∧
    (∀ s x, HyperLogLog.Reachable b g s → ind s.b (s.hasher.hash x) < s.regs.length) ∧
    (∀ s x, HyperLogLogPlus.Reachable b g s →
      ind s.b (s.hasher.hash x) < s.dense_data.length ∧
      ind s.b (s.hasher.hash x) % 65536 = ind s.b (s.hasher.hash x)) ∧
    (∀ s, HyperLogLogPlus.Reachable b g s →
      ∀ kv ∈ s.sparse_data, kv.1 < 2 ^ b ∧ kv.1 < s.dense_data.length) := by
  have hb : 4 ≤ b ∧ b ≤ 32 := ⟨hb4, by omega⟩
  have hpow : 2 ^ b ≤ 65536 := by
    calc 2 ^ b ≤ 2 ^ 16 := Nat.pow_le_pow_right (by norm_num) hb16
      _ = 65536 := by norm_num
  refine ⟨fun h hh => ind_lt b h hb.2 hh, ?_, ?_, ?_⟩
  · intro s x hs
    obtain ⟨h1, _, h3, _, _, _⟩ := HyperLogLog.dense_reachable_inv b g (by omega) s hs
    rw [h1, h3]
    exact ind_lt b _ hb.2 (hash_lt _ _)
  · intro s x hs
    obtain ⟨h1, _, _, _, h5, _, _⟩ := HyperLogLogPlus.reachable_inv b g hb16 s hs
    have hlt : ind b (s.hasher.hash x) < 2 ^ b := ind_lt b _ hb.2 (hash_lt _ _)
    rw [h1, h5]
    exact ⟨hlt, Nat.mod_eq_of_lt (by omega)⟩
  · intro s hs kv hkv
    obtain ⟨_, _, _, _, h5, h6, h7⟩ := HyperLogLogPlus.reachable_inv b g hb16 s hs
    cases hm : s.sparse_mode with
    | true =>
      have := ((h6 hm).2.1 kv hkv).1
      exact ⟨this, by rw [h5]; exact this⟩
    | false =>
      rw [(h7 hm).1] at hkv
      cases hkv

/-- Witness of `index_in_bounds` at `b = 4`. -/
theorem index_in_bounds_witness :
    (4 ≤ 4 ∧ 4 ≤ 16) ∧ ind 4 0xF0000000 < 2 ^ 4 :=
  ⟨⟨by decide, by decide⟩,
    (index_in_bounds 4 (HashFuncGen.new 1 0) (by decide) (by decide)).1 0xF0000000 (by decide)⟩

/-- C5 fails as stated: with `b = 4`, multiplier 1 and additive constant `2^32 - 97`,
the string `"a"` hashes to 0, its remainder is 0, and `add` stores the rank 32, which
is above `33 - b = 29`, in register 0 of the dense sketch and under key 0 of the
sparse map of the hybrid sketch. -/
theorem stored_rank_bound_counterexample :
    (HashFuncGen.new 1 4294967199).hash [97] = 0 ∧
    ((HyperLogLog.init 4 (HashFuncGen.new 1 4294967199)).add [97]).regs.getD 0 0 = 32 ∧
    ((HyperLogLogPlus.init 4 (HashFuncGen.new 1 4294967199)).add [97]).sparse_data
      = [(0, 32)] ∧
    ¬ (32 ≤ 33 - 4) := by
  refine ⟨by decide, by decide, by decide, by decide⟩

/-- C5 (as amended): for `b` in `[4,16]`, in every reachable state every nonzero
register of the dense sketch, every value of the sparse map and every nonzero dense
register of the hybrid sketch is a rank in `[1, 32 - b]` or is 32; so every register
value lies in `[0, 32]`. -/
theorem stored_ranks_range (b : Nat) (g : HashFuncGen) (hb4 : 4 ≤ b) (hb16 : b ≤ 16) :
    (∀ s, HyperLogLog.Reachable b g s →
      ∀ v ∈ s.regs, (v = 0 ∨ (1 ≤ v ∧ v ≤ 32 - b) ∨ v = 32) ∧ v ≤ 32) ∧
    (∀ s, HyperLogLogPlus.Reachable b g s →
      (∀ kv ∈ s.sparse_data, ((1 ≤ kv.2 ∧ kv.2 ≤ 32 - b) ∨ kv.2 = 32) ∧ kv.2 ≤ 32) ∧
      (∀ v ∈ s.dense_data, (v = 0 ∨ (1 ≤ v ∧ v ≤ 32 - b) ∨ v = 32) ∧ v ≤ 32)) := by
  have hb : 4 ≤ b ∧ b ≤ 31 := ⟨hb4, by omega⟩
  constructor
  · intro s hs v hv
    have := (HyperLogLog.dense_reachable_inv b g hb.2 s hs).2.2.2.2.2 v hv
    exact ⟨this, by omega⟩
  · intro s hs
    obtain ⟨_, _, _, _, _, h6, h7⟩ := HyperLogLogPlus.reachable_inv b g hb16 s hs
    cases hm : s.sparse_mode with
    | true =>
      obtain ⟨_, hkv, _, hzero⟩ := h6 hm
      refine ⟨fun kv hmem => ⟨(hkv kv hmem).2, ?_⟩, fun v hv => ?_⟩
      · have := (hkv kv hmem).2
        omega
      · rw [hzero] at hv
        have : v = 0 := (List.mem_replicate.1 hv).2
        exact ⟨Or.inl this, by omega⟩
    | false =>
      obtain ⟨hnil, hvals⟩ := h7 hm
      refine ⟨fun kv hmem => ?_, fun v hv => ⟨hvals v hv, ?_⟩⟩
      · rw [hnil] at hmem
        cases hmem
      · have := hvals v hv
        omega

/-- Witness of `stored_ranks_range`: the state of the counterexample to the original
bound, whose register 0 holds 32. -/
theorem stored_ranks_range_witness :
    (4 ≤ 4 ∧ 4 ≤ 16) ∧
    ∀ v ∈ ((HyperLogLog.init 4 (HashFuncGen.new 1 4294967199)).add [97]).regs,
      (v = 0 ∨ (1 ≤ v ∧ v ≤ 32 - 4) ∨ v = 32) ∧ v ≤ 32 :=
  ⟨⟨by decide, by decide⟩,
    (stored_ranks_range 4 (HashFuncGen.new 1 4294967199) (by decide) (by decide)).1 _
      (HyperLogLog.Reachable.add _ [97] HyperLogLog.Reachable.init)⟩

/-! ## Idempotence -/

/-- Witness of `dense_register_is_max_rank`: with multiplier `2^28 + 1` and additive
constant 0 the strings `"aa"`, ..., `"ea"` have the indices 1, ..., 5 and rank 21. -/
theorem dense_register_is_max_rank_witness :
    (4 ≤ 4 ∧ 4 ≤ 16 ∧ 3 < 2 ^ 4) ∧
    ([[97, 97], [98, 97], [99, 97], [100, 97], [101, 97]].foldl HyperLogLog.add
        (HyperLogLog.init 4 (HashFuncGen.new 268435457 0))).regs.getD 3 0
      = maxRankAt 4 (HashFuncGen.new 268435457 0)
          [[97, 97], [98, 97], [99, 97], [100, 97], [101, 97]] 3 ∧
    maxRankAt 4 (HashFuncGen.new 268435457 0)
      [[97, 97], [98, 97], [99, 97], [100, 97], [101, 97]] 3 = 21 :=
  ⟨⟨by decide, by decide, by decide⟩,
    (dense_register_is_max_rank 4 (HashFuncGen.new 268435457 0)
      [[97, 97], [98, 97], [99, 97], [100, 97], [101, 97]] [] 3
      (by decide) (by decide) (by decide)).1,
    by decide⟩

/-! ## The estimate of an empty sketch -/

theorem getD_replicate_zero (q i : Nat) : (List.replicate q 0).getD i 0 = 0 := by
  rw [List.getD_eq_getElem?_getD, List.getElem?_replicate]
  split <;> rfl

theorem foldl_sum_zero_regs (regs : List Nat) (hz : ∀ i, regs.getD i 0 = 0) (n : Nat) :
    (List.range n).foldl (fun acc i => acc + 1 / 2 ^ (regs.getD i 0)) (0 : ℚ) = n := by
  induction n with
  | zero => simp
  | succ n ih =>
    rw [List.range_succ, List.foldl_append, ih]
    simp only [List.foldl_cons, List.foldl_nil, hz, pow_zero, div_one, Nat.cast_succ]

theorem foldl_zeros_zero_regs (regs : List Nat) (hz : ∀ i, regs.getD i 0 = 0) (n : Nat) :
    (List.range n).foldl (fun z i => if regs.getD i 0 = 0 then z + 1 else z) 0 = n := by
  induction n with
  | zero => simp
  | succ n ih =>
    rw [List.range_succ, List.foldl_append, ih]
    simp only [List.foldl_cons, List.foldl_nil, hz, if_true]

theorem alphaFor_le (q : Nat) : alphaFor q ≤ 0.7213 := by
  unfold alphaFor
  split_ifs
  · norm_num
  · norm_num
  · norm_num
  · norm_num
  · norm_num
  · apply div_le_self (by norm_num)
    have : (0 : ℚ) ≤ 1.079 / (q : ℚ) := div_nonneg (by norm_num) (Nat.cast_nonneg q)
    linarith

theorem HyperLogLog.sum_init (b : Nat) (g : HashFuncGen) :
    (HyperLogLog.init b g).sum = 2 ^ b := by
  unfold HyperLogLog.sum
  rw [foldl_sum_zero_regs (HyperLogLog.init b g).regs (fun i => getD_replicate_zero _ i)]
  simp [HyperLogLog.init, one_shiftLeft_eq]

theorem HyperLogLog.zeros_init (b : Nat) (g : HashFuncGen) :
    (HyperLogLog.init b g).zeros = 2 ^ b := by
  unfold HyperLogLog.zeros
  rw [foldl_zeros_zero_regs (HyperLogLog.init b g).regs (fun i => getD_replicate_zero _ i)]
  simp [HyperLogLog.init, one_shiftLeft_eq]

theorem HyperLogLog.raw_init (b : Nat) (g : HashFuncGen) :
    (HyperLogLog.init b g).raw = alphaFor (2 ^ b) * 2 ^ b := by
  unfold HyperLogLog.raw
  rw [HyperLogLog.sum_init]
  have hq : (HyperLogLog.init b g).q = 2 ^ b := one_shiftLeft_eq b
  have ha : (HyperLogLog.init b g).alpha = alphaFor (2 ^ b) := by
    simp [HyperLogLog.init, one_shiftLeft_eq]
  rw [hq, ha]
  have hne : ((2 : ℚ) ^ b) ≠ 0 := pow_ne_zero _ (by norm_num)
  push_cast
  field_simp

theorem HyperLogLog.raw_init_le (b : Nat) (g : HashFuncGen) :
    (HyperLogLog.init b g).raw ≤ 2.5 * 2 ^ b := by
  rw [HyperLogLog.raw_init]
  have hpos : (0 : ℚ) ≤ 2 ^ b := by positivity
  have ha := alphaFor_le (2 ^ b)
  exact mul_le_mul_of_nonneg_right (le_trans ha (by norm_num)) hpos

theorem HyperLogLog.dense_estimate_init (b : Nat) (g : HashFuncGen) (ln : ℚ → ℚ) (h1 : ln 1 = 0) :
    (HyperLogLog.init b g).estimate ln = 0 := by
  have hq : (HyperLogLog.init b g).q = 2 ^ b := one_shiftLeft_eq b
  have hle : (HyperLogLog.init b g).raw ≤ 2.5 * ((HyperLogLog.init b g).q : ℚ) := by
    rw [hq]
    push_cast
    exact HyperLogLog.raw_init_le b g
  have hz : (HyperLogLog.init b g).zeros > 0 := by
    rw [HyperLogLog.zeros_init]
    exact Nat.pow_pos (by norm_num)
  have hdiv : ((HyperLogLog.init b g).q : ℚ) / ((HyperLogLog.init b g).zeros : ℚ) = 1 := by
    rw [hq, HyperLogLog.zeros_init]
    exact div_self (by positivity)
  unfold HyperLogLog.estimate
  simp only [hle, hz, if_true, hdiv, h1, mul_zero]
  norm_num

theorem HyperLogLogPlus.estimate_init (b : Nat) (g : HashFuncGen) (ln : ℚ → ℚ) :
    (HyperLogLogPlus.init b g).estimate ln = 0 := by
  simp [HyperLogLogPlus.estimate, HyperLogLogPlus.init]

/-- C7: for `b` in `[4,16]` and every list `L` of inserted strings, `reset` afterwards
gives `memory_used` its value at construction (`2^b` for the dense sketch; 0 for the
hybrid sketch, in sparse mode with an empty map, whatever the mode was) and makes
`estimate` return 0 (for the dense sketch through `b * ln (b / b)`, given
`ln 1 = 0`); the hasher is unchanged. -/
theorem reset_restores_baseline (b : Nat) (g : HashFuncGen) (L : List (List (Fin 256)))
    (hb4 : 4 ≤ b) (hb16 : b ≤ 16) :
    ((L.foldl HyperLogLog.add (HyperLogLog.init b g)).reset.memory_used = 2 ^ b ∧
      (HyperLogLog.init b g).memory_used = 2 ^ b ∧
      (∀ ln : ℚ → ℚ, ln 1 = 0 →
        (L.foldl HyperLogLog.add (HyperLogLog.init b g)).reset.estimate ln = 0) ∧
      (L.foldl HyperLogLog.add (HyperLogLog.init b g)).reset.hasher = g) ∧
    ((L.foldl HyperLogLogPlus.add (HyperLogLogPlus.init b g)).reset.memory_used = 0 ∧
      (HyperLogLogPlus.init b g).memory_used = 0 ∧
      (L.foldl HyperLogLogPlus.add (HyperLogLogPlus.init b g)).reset.sparse_mode = true ∧
      (L.foldl HyperLogLogPlus.add (HyperLogLogPlus.init b g)).reset.sparse_data = [] ∧
      (∀ ln : ℚ → ℚ,
        (L.foldl HyperLogLogPlus.add (HyperLogLogPlus.init b g)).reset.estimate ln = 0) ∧
      (L.foldl HyperLogLogPlus.add (HyperLogLogPlus.init b g)).reset.hasher = g) := by
  have hb : 4 ≤ b ∧ b ≤ 31 := ⟨hb4, by omega⟩
  have hd := HyperLogLog.dense_reset_eq_init b g hb.2 _
    (HyperLogLog.dense_reachable_foldl b g L _ HyperLogLog.Reachable.init)
  have hp := HyperLogLogPlus.reset_eq_init b g _
    (HyperLogLogPlus.reachable_inv b g hb16 _
      (HyperLogLogPlus.reachable_foldl b g L _ HyperLogLogPlus.Reachable.init))
  rw [hd, hp]
  refine ⟨⟨one_shiftLeft_eq b, one_shiftLeft_eq b,
      fun ln h1 => HyperLogLog.dense_estimate_init b g ln h1, rfl⟩,
    ⟨rfl, rfl, rfl, rfl, fun ln => HyperLogLogPlus.estimate_init b g ln, rfl⟩⟩

/-- Witness of `reset_restores_baseline`: five strings, which leave the hybrid sketch
with `b = 4` in dense mode, then `reset`; `ln` is taken as `x - 1`. -/
theorem reset_restores_baseline_witness :
    (4 ≤ 4 ∧ 4 ≤ 16 ∧ (fun x : ℚ => x - 1) 1 = 0) ∧
    ([[97, 97], [98, 97], [99, 97], [100, 97], [101, 97]].foldl HyperLogLog.add
        (HyperLogLog.init 4 (HashFuncGen.new 268435457 0))).reset.estimate
      (fun x => x - 1) = 0 ∧
    ([[97, 97], [98, 97], [99, 97], [100, 97], [101, 97]].foldl HyperLogLogPlus.add
        (HyperLogLogPlus.init 4 (HashFuncGen.new 268435457 0))).reset.memory_used = 0 :=
  ⟨⟨by decide, by decide, by norm_num⟩,
    (reset_restores_baseline 4 (HashFuncGen.new 268435457 0)
      [[97, 97], [98, 97], [99, 97], [100, 97], [101, 97]] (by decide) (by decide)).1.2.2.1
      (fun x => x - 1) (by norm_num),
    (reset_restores_baseline 4 (HashFuncGen.new 268435457 0)
      [[97, 97], [98, 97], [99, 97], [100, 97], [101, 97]] (by decide) (by decide)).2.1⟩

/-- C10: for `b` in `[4,16]`, `estimate` of a freshly constructed sketch is 0: for the
hybrid sketch through the empty-map return; for the dense sketch because the raw
estimate is `alpha * 2^b`, at most `2.5 * 2^b`, and all `2^b > 0` registers are zero,
so linear counting gives `2^b * ln (2^b / 2^b) = 0` (given `ln 1 = 0`), which is not
above the large-range threshold. -/
theorem estimate_fresh_is_zero (b : Nat) (g : HashFuncGen) (hb4 : 4 ≤ b) (hb16 : b ≤ 16) :
    (∀ ln : ℚ → ℚ, (HyperLogLogPlus.init b g).estimate ln = 0) ∧
    (HyperLogLog.init b g).raw = alphaFor (2 ^ b) * 2 ^ b ∧
    (HyperLogLog.init b g).raw ≤ 2.5 * 2 ^ b ∧
    (HyperLogLog.init b g).zeros = 2 ^ b ∧
    0 < (HyperLogLog.init b g).zeros ∧
    (∀ ln : ℚ → ℚ, ln 1 = 0 →
      ((HyperLogLog.init b g).q : ℚ) * ln ((HyperLogLog.init b g).q / (HyperLogLog.init b g).zeros)
        = 0 ∧
      ¬ ((0 : ℚ) > 143165576.533) ∧
      (HyperLogLog.init b g).estimate ln = 0) := by
  have hb : 4 ≤ b ∧ b ≤ 16 := ⟨hb4, hb16⟩
  have hz := HyperLogLog.zeros_init b g
  refine ⟨fun ln => HyperLogLogPlus.estimate_init b g ln, HyperLogLog.raw_init b g,
    HyperLogLog.raw_init_le b g, hz, ?_, ?_⟩
  · rw [hz]
    exact Nat.pow_pos (by norm_num)
  · intro ln h1
    refine ⟨?_, by norm_num, HyperLogLog.dense_estimate_init b g ln h1⟩
    have hq : (HyperLogLog.init b g).q = 2 ^ b := one_shiftLeft_eq b
    rw [hq, hz, div_self (by positivity), h1, mul_zero]

/-- Witness of `estimate_fresh_is_zero` at `b = 4`, with `ln` taken as `x - 1`. -/
theorem estimate_fresh_is_zero_witness :
    (4 ≤ 4 ∧ 4 ≤ 16 ∧ (fun x : ℚ => x - 1) 1 = 0) ∧
    (HyperLogLog.init 4 (HashFuncGen.new 1 0)).estimate (fun x => x - 1) = 0 ∧
    (HyperLogLogPlus.init 4 (HashFuncGen.new 1 0)).estimate (fun x => x - 1) = 0 :=
  ⟨⟨by decide, by decide, by norm_num⟩,
    ((estimate_fresh_is_zero 4 (HashFuncGen.new 1 0) (by decide) (by decide)).2.2.2.2.2
      (fun x => x - 1) (by norm_num)).2.2,
    (estimate_fresh_is_zero 4 (HashFuncGen.new 1 0) (by decide) (by decide)).1 (fun x => x - 1)⟩

/-! ## The promotion boundary -/

theorem distinctIndices_append_singleton (b : Nat) (g : HashFuncGen)
    (L : List (List (Fin 256))) (x : List (Fin 256)) :
    (((L ++ [x]).map (fun y => ind b (g.hash y))).toFinset) =
      insert (ind b (g.hash x)) ((L.map (fun y => ind b (g.hash y))).toFinset) := by
  ext i
  simp only [List.map_append, List.map_cons, List.map_nil, List.toFinset_append,
    List.toFinset_cons, List.toFinset_nil, Finset.mem_union, Finset.mem_insert,
    Finset.mem_singleton, insert_emptyc_eq]
  tauto

theorem distinctIndices_mono (b : Nat) (g : HashFuncGen)
    (L : List (List (Fin 256))) (x : List (Fin 256)) :
    distinctIndices b g L ≤ distinctIndices b g (L ++ [x]) := by
  unfold distinctIndices
  rw [distinctIndices_append_singleton]
  exact Finset.card_le_card (Finset.subset_insert _ _)

/-- After the items `L` a fresh hybrid sketch is either in sparse mode, with exactly
the indices of `L` as map keys, or in dense mode, with more than `2^b / 4` distinct
indices in `L`. -/
theorem HyperLogLogPlus.foldl_add_mode (b : Nat) (g : HashFuncGen) (hb : b ≤ 16)
    (L : List (List (Fin 256))) :
    ((L.foldl HyperLogLogPlus.add (HyperLogLogPlus.init b g)).sparse_mode = true →
      ((L.foldl HyperLogLogPlus.add (HyperLogLogPlus.init b g)).sparse_data.map
          Prod.fst).toFinset = (L.map (fun y => ind b (g.hash y))).toFinset) ∧
    ((L.foldl HyperLogLogPlus.add (HyperLogLogPlus.init b g)).sparse_mode = false →
      2 ^ b < distinctIndices b g L * 4) := by
  induction L using List.reverseRecOn with
  | nil =>
    constructor
    · intro _; rfl
    · intro h; simp [HyperLogLogPlus.init] at h
  | append_singleton L x ih =>
    rw [List.foldl_append, List.foldl_cons, List.foldl_nil]
    have hinv := HyperLogLogPlus.reachable_inv b g hb _
      (HyperLogLogPlus.reachable_foldl b g L _ HyperLogLogPlus.Reachable.init)
    generalize L.foldl HyperLogLogPlus.add (HyperLogLogPlus.init b g) = s at ih hinv
    obtain ⟨h1, h2, h3, _, _, h6, _⟩ := hinv
    have hind : ind b (g.hash x) < 2 ^ b := ind_lt b _ (by omega) (hash_lt g x)
    have hpow : 2 ^ b ≤ 65536 := by
      calc 2 ^ b ≤ 2 ^ 16 := Nat.pow_le_pow_right (by norm_num) hb
        _ = 65536 := by norm_num
    have hkey : ind b (g.hash x) % 65536 = ind b (g.hash x) := Nat.mod_eq_of_lt (by omega)
    cases hm : s.sparse_mode with
    | true =>
      obtain ⟨hsort, _, _, _⟩ := h6 hm
      have hkeys : ((s.upsert (ind s.b (s.hasher.hash x))
          (pos s.b (s.hasher.hash x))).sparse_data.map Prod.fst).toFinset =
          ((L ++ [x]).map (fun y => ind b (g.hash y))).toFinset := by
        rw [HyperLogLogPlus.upsert_keys, ih.1 hm, distinctIndices_append_singleton, h1, h3, hkey]
      have hlen := length_eq_card_keys _
        (HyperLogLogPlus.upsert_sorted s (ind s.b (s.hasher.hash x))
          (pos s.b (s.hasher.hash x)) hsort)
      rw [hkeys] at hlen
      have hmode := (HyperLogLogPlus.upsert_fields s (ind s.b (s.hasher.hash x))
        (pos s.b (s.hasher.hash x))).2.2.1
      rw [HyperLogLogPlus.add_sparse s x hm]
      split
      · rename_i hgt
        constructor
        · intro hc
          simp [HyperLogLogPlus.to_dense] at hc
        · intro _
          unfold distinctIndices
          rw [← hlen, ← h2]
          exact hgt
      · constructor
        · intro _
          exact hkeys
        · intro hc
          rw [hmode, hm] at hc
          cases hc
    | false =>
      rw [HyperLogLogPlus.add_dense s x hm]
      constructor
      · intro hc
        simp only at hc
        rw [hm] at hc
        cases hc
      · intro _
        exact Nat.lt_of_lt_of_le (ih.2 hm)
          (Nat.mul_le_mul_right 4 (distinctIndices_mono b g L x))

/-- C8: for `b` in `[4,16]` and every list `L` of items added to a fresh hybrid
sketch, the sketch is in sparse mode iff `L` populates at most `2^b / 4` distinct
indices, and then `memory_used` is 3 times their number; when `L` populates
`2^b / 4 + 1` distinct indices or more, the sketch is in dense mode and `memory_used`
is `2^b`. -/
theorem promotion_boundary (b : Nat) (g : HashFuncGen) (L : List (List (Fin 256)))
    (hb4 : 4 ≤ b) (hb16 : b ≤ 16) :
    ((L.foldl HyperLogLogPlus.add (HyperLogLogPlus.init b g)).sparse_mode = true ↔
      distinctIndices b g L ≤ 2 ^ b / 4) ∧
    (distinctIndices b g L ≤ 2 ^ b / 4 →
      (L.foldl HyperLogLogPlus.add (HyperLogLogPlus.init b g)).memory_used
        = 3 * distinctIndices b g L) ∧
    (2 ^ b / 4 + 1 ≤ distinctIndices b g L →
      (L.foldl HyperLogLogPlus.add (HyperLogLogPlus.init b g)).sparse_mode = false ∧
      (L.foldl HyperLogLogPlus.add (HyperLogLogPlus.init b g)).memory_used = 2 ^ b) := by
  have hb : 4 ≤ b := hb4
  obtain ⟨hsp, hde⟩ := HyperLogLogPlus.foldl_add_mode b g hb16 L
  obtain ⟨_, h2, _, _, _, h6, _⟩ := HyperLogLogPlus.reachable_inv b g hb16 _
    (HyperLogLogPlus.reachable_foldl b g L _ HyperLogLogPlus.Reachable.init)
  generalize L.foldl HyperLogLogPlus.add (HyperLogLogPlus.init b g) = s at hsp hde h2 h6
  have hcount : s.sparse_mode = true → s.sparse_data.length = distinctIndices b g L := by
    intro hm
    rw [length_eq_card_keys _ (h6 hm).1, hsp hm]
    rfl
  have hiff : s.sparse_mode = true ↔ distinctIndices b g L ≤ 2 ^ b / 4 := by
    constructor
    · intro hm
      have h := (h6 hm).2.2.1
      rw [hcount hm] at h
      omega
    · intro hle
      cases hm : s.sparse_mode with
      | true => rfl
      | false =>
        have := hde hm
        omega
  refine ⟨hiff, ?_, ?_⟩
  · intro hle
    have hm := hiff.2 hle
    unfold HyperLogLogPlus.memory_used
    rw [hm, if_pos rfl, hcount hm, Nat.mul_comm]
  · intro hgt
    have hm : s.sparse_mode = false := by
      cases hm : s.sparse_mode with
      | false => rfl
      | true =>
        have := hiff.1 hm
        omega
    refine ⟨hm, ?_⟩
    unfold HyperLogLogPlus.memory_used
    rw [hm, h2]
    rfl

/-- Witness of `promotion_boundary` at `b = 4`: the strings `"aa"`, `"ba"`, `"ca"`,
`"da"` populate the 4 indices 1 to 4 and leave the sketch in sparse mode with
`memory_used` 12; the fifth string `"ea"` populates index 5 and the sketch is in
dense mode with `memory_used` 16. -/
theorem promotion_boundary_witness :
    (4 ≤ 4 ∧ 4 ≤ 16) ∧
    (distinctIndices 4 (HashFuncGen.new 268435457 0)
        [[97, 97], [98, 97], [99, 97], [100, 97]] = 4 ∧
      ([[97, 97], [98, 97], [99, 97], [100, 97]].foldl HyperLogLogPlus.add
        (HyperLogLogPlus.init 4 (HashFuncGen.new 268435457 0))).sparse_mode = true ∧
      ([[97, 97], [98, 97], [99, 97], [100, 97]].foldl HyperLogLogPlus.add
        (HyperLogLogPlus.init 4 (HashFuncGen.new 268435457 0))).memory_used = 12) ∧
    (distinctIndices 4 (HashFuncGen.new 268435457 0)
        [[97, 97], [98, 97], [99, 97], [100, 97], [101, 97]] = 5 ∧
      ([[97, 97], [98, 97], [99, 97], [100, 97], [101, 97]].foldl HyperLogLogPlus.add
        (HyperLogLogPlus.init 4 (HashFuncGen.new 268435457 0))).sparse_mode = false ∧
      ([[97, 97], [98, 97], [99, 97], [100, 97], [101, 97]].foldl HyperLogLogPlus.add
        (HyperLogLogPlus.init 4 (HashFuncGen.new 268435457 0))).memory_used = 2 ^ 4) :=
  ⟨⟨by decide, by decide⟩,
    ⟨by decide,
      (promotion_boundary 4 (HashFuncGen.new 268435457 0)
        [[97, 97], [98, 97], [99, 97], [100, 97]] (by decide) (by decide)).1.2 (by decide),
      (promotion_boundary 4 (HashFuncGen.new 268435457 0)
        [[97, 97], [98, 97], [99, 97], [100, 97]] (by decide) (by decide)).2.1 (by decide)⟩,
    ⟨by decide,
      (promotion_boundary 4 (HashFuncGen.new 268435457 0)
        [[97, 97], [98, 97], [99, 97], [100, 97], [101, 97]] (by decide) (by decide)).2.2
        (by decide)⟩⟩

/-! ## The rank of a hash value -/

theorem remainder_eq_zero_iff (b h : Nat) (hb : b ≤ 32) :
    (h <<< b) % 2 ^ 32 = 0 ↔ h % 2 ^ (32 - b) = 0 := by
  have e : (2 : Nat) ^ 32 = 2 ^ (32 - b) * 2 ^ b := by
    rw [← pow_add]; congr 1; omega
  rw [Nat.shiftLeft_eq, e, Nat.mul_mod_mul_right]
  have hpos : 0 < 2 ^ b := Nat.pow_pos (by norm_num)
  constructor
  · intro h0
    rcases Nat.mul_eq_zero.1 h0 with h1 | h1
    · exact h1
    · omega
  · intro h0
    rw [h0, Nat.zero_mul]

theorem pos_of_remainder_eq_zero (b h : Nat) (hr : (h <<< b) % 2 ^ 32 = 0) :
    pos b h = 32 := by
  have hw : w b h = 1 := by
    unfold w
    exact if_pos hr
  simp only [pos, hw]
  decide

theorem pos_of_remainder_ne_zero (b h : Nat) (hb : b ≤ 31) (hr : (h <<< b) % 2 ^ 32 ≠ 0) :
    pos b h ≤ 32 - b := by
  have hw : w b h = (h <<< b) % 2 ^ 32 := by
    unfold w
    exact if_neg hr
  have hdvd : 2 ^ b ∣ (h <<< b) % 2 ^ 32 := by
    rw [Nat.shiftLeft_eq]
    have h1 : 2 ^ b ∣ 2 ^ 32 := pow_dvd_pow 2 (by omega)
    exact (Nat.dvd_mod_iff h1).2 (Dvd.intro_left h rfl)
  have hge : 2 ^ b ≤ (h <<< b) % 2 ^ 32 := Nat.le_of_dvd (Nat.pos_of_ne_zero hr) hdvd
  have hlt : (h <<< b) % 2 ^ 32 < 2 ^ 32 := Nat.mod_lt _ (by norm_num)
  have hk : 2 ^ (31 - (31 - b)) ≤ (h <<< b) % 2 ^ 32 := by
    have : 31 - (31 - b) = b := by omega
    rw [this]; exact hge
  have := shiftRounds_le (32 - 1) _ 1 (31 - b) hlt (by omega) hk
  simp only [pos, shiftLoop, hw]
  omega

/-- C19: for `b` in `[4,16]` and every 32-bit hash value `h`: when the remainder
`(h << b) mod 2^32` is not zero (some of the low `32 - b` bits of `h` is set) the rank
computed by `add` is at most `32 - b`; when it is zero (all of them are clear) the
substitution of 1 makes the rank exactly 32; so every rank is in `[1, 32 - b]` or is
32. -/
theorem rank_cases (b h : Nat) (hb4 : 4 ≤ b) (hb16 : b ≤ 16) (hh : h < 2 ^ 32) :
    ((h <<< b) % 2 ^ 32 ≠ 0 ↔ h % 2 ^ (32 - b) ≠ 0) ∧
    ((h <<< b) % 2 ^ 32 ≠ 0 → 1 ≤ pos b h ∧ pos b h ≤ 32 - b) ∧
    ((h <<< b) % 2 ^ 32 = 0 → w b h = 1 ∧ pos b h = 32) ∧
    ((1 ≤ pos b h ∧ pos b h ≤ 32 - b) ∨ pos b h = 32) := by
  have hb : 4 ≤ b ∧ h < 2 ^ 32 := ⟨hb4, hh⟩
  refine ⟨not_congr (remainder_eq_zero_iff b h (by omega)), ?_, ?_, ?_⟩
  · intro hr
    exact ⟨pos_ge_one b h, pos_of_remainder_ne_zero b h (by omega) hr⟩
  · intro hr
    refine ⟨?_, pos_of_remainder_eq_zero b h hr⟩
    unfold w
    exact if_pos hr
  · by_cases hr : (h <<< b) % 2 ^ 32 = 0
    · exact Or.inr (pos_of_remainder_eq_zero b h hr)
    · exact Or.inl ⟨pos_ge_one b h, pos_of_remainder_ne_zero b h (by omega) hr⟩

/-- Witness of `rank_cases`: with `b = 4` the hash value `0x30000000` has a zero
remainder and rank 32, the hash value `0x30000001` has rank 28. -/
theorem rank_cases_witness :
    (4 ≤ 4 ∧ 4 ≤ 16 ∧ 0x30000000 < 2 ^ 32 ∧ (0x30000000 <<< 4) % 2 ^ 32 = 0) ∧
    (w 4 0x30000000 = 1 ∧ pos 4 0x30000000 = 32) ∧ pos 4 0x30000001 = 28 :=
  ⟨⟨by decide, by decide, by decide, by decide⟩,
    (rank_cases 4 0x30000000 (by decide) (by decide) (by decide)).2.2.1 (by decide),
    by decide⟩

/-! ## The hash modulo `2^32` -/

theorem foldl_step_mod (g : HashFuncGen) (s : List (Fin 256)) :
    ∀ acc acc' : Nat, acc % 2 ^ 32 = acc' % 2 ^ 32 →
      (s.foldl g.step acc) % 2 ^ 32 =
        s.foldl (fun h ch => (h * (g.a % 2 ^ 32) + ch.val) % 2 ^ 32) (acc' % 2 ^ 32) := by
  induction s with
  | nil => intro acc acc' h; simpa using h
  | cons c t ih =>
    intro acc acc' h
    rw [List.foldl_cons, List.foldl_cons]
    have hstep : g.step acc c % 2 ^ 32 =
        ((acc' % 2 ^ 32) * (g.a % 2 ^ 32) + c.val) % 2 ^ 32 := by
      unfold HashFuncGen.step
      have hd : (2 : Nat) ^ 32 ∣ 2 ^ 64 := pow_dvd_pow 2 (by norm_num)
      rw [Nat.mod_mod_of_dvd _ hd]
      have h1 : (acc * g.a) % 2 ^ 32 = ((acc' % 2 ^ 32) * (g.a % 2 ^ 32)) % 2 ^ 32 := by
        rw [Nat.mul_mod, h, ← Nat.mul_mod]
      rw [Nat.add_mod, h1, ← Nat.add_mod]
    have := ih (g.step acc c) (((acc' % 2 ^ 32) * (g.a % 2 ^ 32) + c.val) % 2 ^ 32)
      (by rw [hstep, Nat.mod_mod])
    rw [this, Nat.mod_mod]

/-- C20: the 32-bit hash depends only on the low 32 bits of the two 64-bit
coefficients: for every multiplier `a`, additive constant `c` and byte string `s`,
the hash with `(a, c)` is the hash with `(a mod 2^32, c mod 2^32)`, and is the Horner
accumulation carried out entirely modulo `2^32`. -/
theorem hash_low_bits (a c : Nat) (s : List (Fin 256)) :
    (HashFuncGen.mk a c).hash s = (HashFuncGen.mk (a % 2 ^ 32) (c % 2 ^ 32)).hash s ∧
    (HashFuncGen.mk a c).hash s = hash32 a c s := by
  have h1 : (HashFuncGen.mk a c).hash s = hash32 a c s := by
    unfold HashFuncGen.hash hash32
    exact foldl_step_mod (HashFuncGen.mk a c) s c c rfl
  have h2 : (HashFuncGen.mk (a % 2 ^ 32) (c % 2 ^ 32)).hash s = hash32 a c s := by
    unfold HashFuncGen.hash hash32
    have := foldl_step_mod (HashFuncGen.mk (a % 2 ^ 32) (c % 2 ^ 32)) s (c % 2 ^ 32) c
      (Nat.mod_mod _ _)
    simpa [Nat.mod_mod] using this
  exact ⟨h1.trans h2.symm, h1⟩

/-! ## The rank as a count of leading zeros -/

theorem w_pos_lt (b h : Nat) : 0 < w b h ∧ w b h < 2 ^ 32 := by
  unfold w
  simp only []
  split
  · exact ⟨by norm_num, by norm_num⟩
  · rename_i hr
    exact ⟨Nat.pos_of_ne_zero hr, Nat.mod_lt _ (by norm_num)⟩

theorem shiftRounds_eq (n : Nat) :
    ∀ w pos k, k ≤ n → pos + k ≤ 32 → k ≤ 31 → 2 ^ (31 - k) ≤ w → w < 2 ^ (32 - k) →
      shiftRounds n w pos = pos + k := by
  induction n with
  | zero =>
    intro w pos k hk _ _ _ _
    have : k = 0 := by omega
    subst this
    simp [shiftRounds]
  | succ n ih =>
    intro w pos k hk hpk hk31 hlo hhi
    simp only [shiftRounds]
    by_cases hk0 : k = 0
    · subst hk0
      have hw : w < 2 ^ 32 := hhi
      have hnot : ¬ (w &&& 0x80000000 = 0 ∧ pos < 32) := by
        intro hc
        have := (and_top_bit_eq_zero_iff w hw).1 hc.1
        have hlo' : 2 ^ 31 ≤ w := hlo
        omega
      rw [if_neg hnot]
      rfl
    · have hle : 2 ^ (32 - k) ≤ 2 ^ 31 := Nat.pow_le_pow_right (by norm_num) (by omega)
      have hw31 : w < 2 ^ 31 := Nat.lt_of_lt_of_le hhi hle
      have hw : w < 2 ^ 32 := by
        have : (2 : Nat) ^ 31 < 2 ^ 32 := by norm_num
        omega
      have hc : w &&& 0x80000000 = 0 ∧ pos < 32 :=
        ⟨(and_top_bit_eq_zero_iff w hw).2 hw31, by omega⟩
      rw [if_pos hc]
      have hw2 : (w <<< 1) % 2 ^ 32 = 2 * w := by
        rw [Nat.shiftLeft_eq, Nat.mod_eq_of_lt] <;> omega
      have hp1 : 2 ^ (31 - (k - 1)) = 2 * 2 ^ (31 - k) := by
        rw [← pow_succ']; congr 1; omega
      have hp2 : 2 ^ (32 - (k - 1)) = 2 * 2 ^ (32 - k) := by
        rw [← pow_succ']; congr 1; omega
      rw [hw2, ih (2 * w) (pos + 1) (k - 1) (by omega) (by omega) (by omega)
        (by rw [hp1]; omega) (by rw [hp2]; omega)]
      omega

theorem leadingZeros32_eq (w k : Nat) (hk : k ≤ 31) (hlo : 2 ^ (31 - k) ≤ w)
    (hhi : w < 2 ^ (32 - k)) : leadingZeros32 w = k := by
  unfold leadingZeros32
  have hsplit : List.range 32 = List.range k ++ (List.range (31 - k + 1)).map (k + ·) := by
    rw [← List.range_add]
    congr 1
    omega
  have hclear : ∀ i ∈ List.range k, (fun i => !w.testBit (31 - i)) i = true := by
    intro i hi
    have hik : i < k := List.mem_range.1 hi
    have hle : 2 ^ (32 - k) ≤ 2 ^ (31 - i) := Nat.pow_le_pow_right (by norm_num) (by omega)
    simp only [Nat.testBit_lt_two_pow (Nat.lt_of_lt_of_le hhi hle), Bool.not_false]
  have hset : w.testBit (31 - k) = true := by
    rw [Nat.testBit_to_div_mod]
    have hp : 2 ^ (32 - k) = 2 * 2 ^ (31 - k) := by
      rw [← pow_succ']; congr 1; omega
    have : w / 2 ^ (31 - k) = 1 :=
      Nat.div_eq_of_lt_le (by omega) (by rw [hp] at hhi; omega)
    rw [this]
    rfl
  rw [hsplit, List.takeWhile_append_of_pos hclear, List.range_succ_eq_map, List.map_cons,
    List.takeWhile_cons]
  simp [hset]

theorem exists_top_bit (w : Nat) (h0 : 0 < w) (h32 : w < 2 ^ 32) :
    ∃ k, k ≤ 31 ∧ 2 ^ (31 - k) ≤ w ∧ w < 2 ^ (32 - k) := by
  have hne : w ≠ 0 := Nat.pos_iff_ne_zero.1 h0
  have hlog : w.log2 < 32 := (Nat.log2_lt hne).2 h32
  refine ⟨31 - w.log2, by omega, ?_, ?_⟩
  · have : 31 - (31 - w.log2) = w.log2 := by omega
    rw [this]
    exact Nat.log2_self_le hne
  · have : 32 - (31 - w.log2) = w.log2 + 1 := by omega
    rw [this]
    exact Nat.lt_log2_self

/-- C13: for `b` in `[4,16]` and every 32-bit hash value `h`, with `w` the remainder
`(h << b) mod 2^32` replaced by 1 when it is 0: the loop of `add` obeys the equation
of the source loop, comes to its end within 31 rounds (any number of rounds from 31
on gives the same value), and the rank it yields is 1 plus the number of leading zero
bits of `w` as a 32-bit word, a number in `[1, 32]`. -/
theorem rank_is_leading_zeros (b h : Nat) (hb4 : 4 ≤ b) (hb16 : b ≤ 16) (hh : h < 2 ^ 32) :
    (w b h = if (h <<< b) % 2 ^ 32 = 0 then 1 else (h <<< b) % 2 ^ 32) ∧
    (∀ v p, shiftLoop v p =
      if v &&& 0x80000000 = 0 ∧ p < 32 then shiftLoop ((v <<< 1) % 2 ^ 32) (p + 1) else p) ∧
    (∀ n, 31 ≤ n → shiftRounds n (w b h) 1 = 1 + leadingZeros32 (w b h)) ∧
    pos b h = 1 + leadingZeros32 (w b h) ∧
    1 ≤ pos b h ∧ pos b h ≤ 32 := by
  have hb : 4 ≤ b ∧ b ≤ 16 ∧ h < 2 ^ 32 := ⟨hb4, hb16, hh⟩
  obtain ⟨h0, h32⟩ := w_pos_lt b h
  obtain ⟨k, hk, hlo, hhi⟩ := exists_top_bit (w b h) h0 h32
  have hlz := leadingZeros32_eq (w b h) k hk hlo hhi
  have hrounds : ∀ n, 31 ≤ n → shiftRounds n (w b h) 1 = 1 + leadingZeros32 (w b h) := by
    intro n hn
    rw [hlz]
    exact shiftRounds_eq n (w b h) 1 k (by omega) (by omega) hk hlo hhi
  refine ⟨rfl, shiftLoop_eq, hrounds, hrounds 31 (Nat.le_refl _), pos_ge_one b h, pos_le b h⟩

/-- Witness of `rank_is_leading_zeros`: with `b = 4` the hash value `0x30000001` has
the remainder `0x00000010`, with 27 leading zero bits, and rank 28. -/
theorem rank_is_leading_zeros_witness :
    (4 ≤ 4 ∧ 4 ≤ 16 ∧ 0x30000001 < 2 ^ 32) ∧
    pos 4 0x30000001 = 1 + leadingZeros32 (w 4 0x30000001) ∧
    w 4 0x30000001 = 0x10 ∧ leadingZeros32 0x10 = 27 :=
  ⟨⟨by decide, by decide, by decide⟩,
    (rank_is_leading_zeros 4 0x30000001 (by decide) (by decide) (by decide)).2.2.2.1,
    by decide, by decide⟩

/-! ## The representation invariant -/

/-- C18: in every state of the hybrid sketch reachable from construction by `add` and
`reset` calls (`b` in `[4,16]`): in sparse mode every entry of the dense array is 0,
the map has at most `2^b / 4` entries and every map value is at least 1; in dense mode
the map is empty; and `reset` yields exactly the freshly constructed state. -/
theorem hybrid_representation_invariant (b : Nat) (g : HashFuncGen) (s : HyperLogLogPlus)
    (hb4 : 4 ≤ b) (hb16 : b ≤ 16) (hs : HyperLogLogPlus.Reachable b g s) :
    (s.sparse_mode = true →
      (∀ v ∈ s.dense_data, v = 0) ∧ s.dense_data.length = 2 ^ b ∧
      s.sparse_data.length ≤ 2 ^ b / 4 ∧ ∀ kv ∈ s.sparse_data, 1 ≤ kv.2) ∧
    (s.sparse_mode = false → s.sparse_data = []) ∧
    s.reset = HyperLogLogPlus.init b g := by
  have hb : 4 ≤ b := hb4
  have hinv := HyperLogLogPlus.reachable_inv b g hb16 s hs
  refine ⟨?_, ?_, HyperLogLogPlus.reset_eq_init b g s hinv⟩
  · intro hm
    obtain ⟨_, _, _, _, h5, h6, _⟩ := hinv
    obtain ⟨_, hkv, hlen, hzero⟩ := h6 hm
    refine ⟨?_, h5, by omega, ?_⟩
    · intro v hv
      rw [hzero] at hv
      exact (List.mem_replicate.1 hv).2
    · intro kv hmem
      have := (hkv kv hmem).2
      omega
  · intro hm
    exact (hinv.2.2.2.2.2.2 hm).1

/-- Witness of `hybrid_representation_invariant`: the hybrid sketch with `b = 4` after
the five strings `"aa"`, ..., `"ea"`, which is in dense mode. -/
theorem hybrid_representation_invariant_witness :
    (4 ≤ 4 ∧ 4 ≤ 16) ∧
    ([[97, 97], [98, 97], [99, 97], [100, 97], [101, 97]].foldl HyperLogLogPlus.add
        (HyperLogLogPlus.init 4 (HashFuncGen.new 268435457 0))).reset
      = HyperLogLogPlus.init 4 (HashFuncGen.new 268435457 0) :=
  ⟨⟨by decide, by decide⟩,
    (hybrid_representation_invariant 4 (HashFuncGen.new 268435457 0) _ (by decide) (by decide)
      (HyperLogLogPlus.reachable_foldl 4 (HashFuncGen.new 268435457 0)
        [[97, 97], [98, 97], [99, 97], [100, 97], [101, 97]] _
        HyperLogLogPlus.Reachable.init)).2.2⟩

/-! ## The memory proxies at promotion -/

theorem HyperLogLogPlus.upsert_length_le (s : HyperLogLogPlus) (i p : Nat)
    (hs : s.sparse_data.Pairwise (fun x y => x.1 < y.1)) :
    (s.upsert i p).sparse_data.length ≤ s.sparse_data.length + 1 := by
  rcases HyperLogLogPlus.upsert_cases s i p with ⟨h, _⟩ | ⟨h, _⟩
  · rw [h]
    simp only [length_mapAssign _ _ _ hs]
    split <;> omega
  · rw [h]
    omega

/-- C16 fails as stated: the hybrid sketch with `b = 4` that holds the 4 indices of
`"aa"`, ..., `"da"` promotes on `"ea"`, when the map has 5 entries (more than
`16 / 4`); the sparse proxy of those 5 entries is 15, below the dense proxy 16. -/
theorem promotion_proxy_counterexample :
    ((([[97, 97], [98, 97], [99, 97], [100, 97]].foldl HyperLogLogPlus.add
        (HyperLogLogPlus.init 4 (HashFuncGen.new 268435457 0))).upsert
      (ind 4 ((HashFuncGen.new 268435457 0).hash [101, 97]))
      (pos 4 ((HashFuncGen.new 268435457 0).hash [101, 97]))).sparse_data.length = 5) ∧
    5 > 2 ^ 4 / 4 ∧
    ((([[97, 97], [98, 97], [99, 97], [100, 97]].foldl HyperLogLogPlus.add
        (HyperLogLogPlus.init 4 (HashFuncGen.new 268435457 0))).add [101, 97]).sparse_mode
      = false) ∧
    ((([[97, 97], [98, 97], [99, 97], [100, 97]].foldl HyperLogLogPlus.add
        (HyperLogLogPlus.init 4 (HashFuncGen.new 268435457 0))).upsert
      (ind 4 ((HashFuncGen.new 268435457 0).hash [101, 97]))
      (pos 4 ((HashFuncGen.new 268435457 0).hash [101, 97]))).memory_used = 3 * 5) ∧
    ((([[97, 97], [98, 97], [99, 97], [100, 97]].foldl HyperLogLogPlus.add
        (HyperLogLogPlus.init 4 (HashFuncGen.new 268435457 0))).add [101, 97]).memory_used
      = 2 ^ 4) ∧
    ¬ (3 * 5 ≥ 2 ^ 4) := by
  refine ⟨by decide, by decide, by decide, by decide, by decide, by decide⟩

/-- C16 (as amended): for `b` in `[4,16]` (`m = 2^b`), whenever `add` promotes a
reachable sparse sketch, the entry count `k` after the upsert is exactly `m / 4 + 1`,
so `4 * k > m` (the load-factor check), while the sparse proxy `3 * k` that
`memory_used` would report is `3 * (m / 4 + 1)`, strictly below the dense proxy `m`
reported after the promotion. -/
theorem promotion_proxy (b : Nat) (g : HashFuncGen) (s : HyperLogLogPlus)
    (x : List (Fin 256)) (hb4 : 4 ≤ b) (hb16 : b ≤ 16)
    (hs : HyperLogLogPlus.Reachable b g s) (hm : s.sparse_mode = true)
    (hp : (s.add x).sparse_mode = false) :
    (s.upsert (ind s.b (s.hasher.hash x)) (pos s.b (s.hasher.hash x))).sparse_data.length
      = 2 ^ b / 4 + 1 ∧
    2 ^ b < 4 * (s.upsert (ind s.b (s.hasher.hash x))
      (pos s.b (s.hasher.hash x))).sparse_data.length ∧
    (s.upsert (ind s.b (s.hasher.hash x)) (pos s.b (s.hasher.hash x))).memory_used
      = 3 * (2 ^ b / 4 + 1) ∧
    (s.upsert (ind s.b (s.hasher.hash x)) (pos s.b (s.hasher.hash x))).memory_used < 2 ^ b ∧
    (s.add x).memory_used = 2 ^ b := by
  obtain ⟨_, h2, _, _, _, h6, _⟩ := HyperLogLogPlus.reachable_inv b g hb16 s hs
  obtain ⟨hsort, _, hlen, _⟩ := h6 hm
  have hle := HyperLogLogPlus.upsert_length_le s (ind s.b (s.hasher.hash x))
    (pos s.b (s.hasher.hash x)) hsort
  obtain ⟨_, u2, u3, _⟩ := HyperLogLogPlus.upsert_fields s (ind s.b (s.hasher.hash x))
    (pos s.b (s.hasher.hash x))
  have hmem : (s.upsert (ind s.b (s.hasher.hash x)) (pos s.b (s.hasher.hash x))).memory_used
      = (s.upsert (ind s.b (s.hasher.hash x))
          (pos s.b (s.hasher.hash x))).sparse_data.length * 3 := by
    unfold HyperLogLogPlus.memory_used
    rw [u3, hm, if_pos rfl]
  have hdiv : 2 ^ b = 4 * 2 ^ (b - 2) := by
    rw [show (4 : Nat) = 2 ^ 2 by norm_num, ← pow_add]
    congr 1
    omega
  have hbig : 4 ≤ 2 ^ (b - 2) := by
    calc 4 = 2 ^ 2 := by norm_num
      _ ≤ 2 ^ (b - 2) := Nat.pow_le_pow_right (by norm_num) (by omega)
  have hq : (s.add x).q = 2 ^ b ∧ (s.upsert (ind s.b (s.hasher.hash x))
      (pos s.b (s.hasher.hash x))).sparse_data.length * 4 > s.q := by
    rw [HyperLogLogPlus.add_sparse s x hm] at hp ⊢
    split at hp
    · rename_i hgt
      rw [if_pos hgt]
      exact ⟨u2.trans h2, hgt⟩
    · rw [u3, hm] at hp
      cases hp
  have hmem2 : (s.add x).memory_used = 2 ^ b := by
    unfold HyperLogLogPlus.memory_used
    rw [hp, hq.1]
    rfl
  have hgt := hq.2
  rw [h2] at hgt
  rw [hmem]
  generalize (s.upsert (ind s.b (s.hasher.hash x))
    (pos s.b (s.hasher.hash x))).sparse_data.length = n at *
  generalize 2 ^ (b - 2) = m at hdiv hbig
  refine ⟨by omega, by omega, by omega, by omega, hmem2⟩

/-- Witness of `promotion_proxy`: the promotion of the counterexample to the original
bound. -/
theorem promotion_proxy_witness :
    (4 ≤ 4 ∧ 4 ≤ 16) ∧
    (([[97, 97], [98, 97], [99, 97], [100, 97]].foldl HyperLogLogPlus.add
        (HyperLogLogPlus.init 4 (HashFuncGen.new 268435457 0))).add [101, 97]).memory_used
      = 2 ^ 4 :=
  ⟨⟨by decide, by decide⟩,
    (promotion_proxy 4 (HashFuncGen.new 268435457 0) _ [101, 97] (by decide) (by decide)
      (HyperLogLogPlus.reachable_foldl 4 (HashFuncGen.new 268435457 0)
        [[97, 97], [98, 97], [99, 97], [100, 97]] _ HyperLogLogPlus.Reachable.init)
      (by decide) (by decide)).2.2.2.2⟩

/-! ## The register view of the hybrid sketch -/

theorem foldl_denseStep_getD (l : List (Nat × Nat)) :
    ∀ (d : List Nat) (i : Nat), l.Pairwise (fun x y => x.1 < y.1) → i < d.length →
      (l.foldl denseStep d).getD i 0 = max (d.getD i 0) ((mapFind i l).getD 0) := by
  induction l with
  | nil => intro d i _ _; simp [mapFind]
  | cons kv t ih =>
    intro d i hl hi
    obtain ⟨k, v⟩ := kv
    rw [List.pairwise_cons] at hl
    rw [List.foldl_cons, ih _ i hl.2 (by rw [length_denseStep]; exact hi),
      getD_denseStep d (k, v) i hi]
    simp only [mapFind]
    by_cases hik : i = k
    · subst hik
      have hnone : mapFind i t = none := by
        rw [mapFind_eq_none_iff]
        intro hmem
        obtain ⟨y, hy, hyk⟩ := List.mem_map.1 hmem
        have := hl.1 y hy
        simp only at this
        omega
      simp [hnone]
    · have hki : ¬ k = i := fun e => hik e.symm
      simp [hik, hki]

theorem HyperLogLogPlus.upsert_getD (s : HyperLogLogPlus) (i p j : Nat) :
    (mapFind j (s.upsert i p).sparse_data).getD 0 =
      if j = i % 65536 then max ((mapFind j s.sparse_data).getD 0) p
      else (mapFind j s.sparse_data).getD 0 := by
  rcases HyperLogLogPlus.upsert_cases s i p with ⟨h, hold⟩ | ⟨h, v, hv, hle⟩
  · rw [h]
    simp only [mapFind_mapAssign]
    by_cases hj : j = i % 65536
    · subst hj
      rcases hold with h0 | ⟨v, hv, hlt⟩
      · simp [h0]
      · simp only [hv, if_true, Option.getD_some]
        omega
    · simp [hj]
  · rw [h]
    by_cases hj : j = i % 65536
    · subst hj
      simp only [hv, if_true, Option.getD_some]
      omega
    · simp [hj]

theorem HyperLogLogPlus.register_to_dense (t : HyperLogLogPlus) (j : Nat)
    (hsort : t.sparse_data.Pairwise (fun x y => x.1 < y.1)) (hj : j < t.q) :
    t.to_dense.register j = (mapFind j t.sparse_data).getD 0 := by
  unfold HyperLogLogPlus.register
  simp only [HyperLogLogPlus.to_dense, Bool.false_eq_true, if_false]
  rw [foldl_denseStep_getD _ _ j hsort (by rw [List.length_replicate]; exact hj),
    getD_replicate_zero]
  omega

/-- The register-wise effect of one `add` of the hybrid sketch, on the register
view. -/
theorem HyperLogLogPlus.add_register (b : Nat) (g : HashFuncGen) (hb : b ≤ 16)
    (s : HyperLogLogPlus) (x : List (Fin 256)) (i : Nat)
    (hs : HyperLogLogPlus.Inv b g s) (hi : i < 2 ^ b) :
    (s.add x).register i =
      if ind b (g.hash x) = i then max (s.register i) (pos b (g.hash x))
      else s.register i := by
  obtain ⟨h1, h2, h3, _, h5, h6, _⟩ := hs
  have hind : ind b (g.hash x) < 2 ^ b := ind_lt b _ (by omega) (hash_lt g x)
  have hpow : 2 ^ b ≤ 65536 := by
    calc 2 ^ b ≤ 2 ^ 16 := Nat.pow_le_pow_right (by norm_num) hb
      _ = 65536 := by norm_num
  have hkey : ind b (g.hash x) % 65536 = ind b (g.hash x) := Nat.mod_eq_of_lt (by omega)
  cases hm : s.sparse_mode with
  | true =>
    obtain ⟨hsort, _, _, _⟩ := h6 hm
    obtain ⟨_, u2, u3, _⟩ := HyperLogLogPlus.upsert_fields s (ind s.b (s.hasher.hash x))
      (pos s.b (s.hasher.hash x))
    have usort := HyperLogLogPlus.upsert_sorted s (ind s.b (s.hasher.hash x))
      (pos s.b (s.hasher.hash x)) hsort
    have hview : (mapFind i (s.upsert (ind s.b (s.hasher.hash x))
        (pos s.b (s.hasher.hash x))).sparse_data).getD 0 =
        if ind b (g.hash x) = i then max (s.register i) (pos b (g.hash x))
        else s.register i := by
      rw [HyperLogLogPlus.upsert_getD, h1, h3, hkey]
      unfold HyperLogLogPlus.register
      rw [hm]
      by_cases hii : i = ind b (g.hash x)
      · simp [hii]
      · have : ¬ ind b (g.hash x) = i := fun e => hii e.symm
        simp [hii, this]
    rw [HyperLogLogPlus.add_sparse s x hm]
    split
    · rw [HyperLogLogPlus.register_to_dense _ i usort (by rw [u2, h2]; exact hi)]
      exact hview
    · rw [← hview]
      unfold HyperLogLogPlus.register
      rw [u3, hm]
      rfl
  | false =>
    rw [HyperLogLogPlus.add_dense s x hm]
    unfold HyperLogLogPlus.register
    simp only [hm, Bool.false_eq_true, if_false]
    rw [getD_denseStep _ _ i (by rw [h5]; exact hi), h1, h3]

theorem HyperLogLogPlus.foldl_add_register (b : Nat) (g : HashFuncGen) (hb : b ≤ 16)
    (L : List (List (Fin 256))) :
    ∀ (s : HyperLogLogPlus) (i : Nat), HyperLogLogPlus.Inv b g s → i < 2 ^ b →
      (L.foldl HyperLogLogPlus.add s).register i = max (s.register i) (maxRankAt b g L i) := by
  induction L with
  | nil => intro s i _ _; simp [maxRankAt]
  | cons x L ih =>
    intro s i hs hi
    rw [List.foldl_cons, ih (s.add x) i (HyperLogLogPlus.inv_add b g hb s x hs) hi,
      HyperLogLogPlus.add_register b g hb s x i hs hi, maxRankAt_cons]
    split <;> omega

/-- C12: for `b` in `[4,16]`, every reachable state of either sketch, every string `x`
and every index `i < 2^b`, the register value at `i` after `add x` is at least its
value before; for the hybrid sketch the register value is the register view (map
entry or 0 in sparse mode, `dense_data[i]` in dense mode), so this holds also for the
`add` that promotes from sparse to dense. -/
theorem register_monotone (b : Nat) (g : HashFuncGen) (x : List (Fin 256)) (i : Nat)
    (hb4 : 4 ≤ b) (hb16 : b ≤ 16) (hi : i < 2 ^ b) :
    (∀ s, HyperLogLog.Reachable b g s → s.regs.getD i 0 ≤ (s.add x).regs.getD i 0) ∧
    (∀ s, HyperLogLogPlus.Reachable b g s → s.register i ≤ (s.add x).register i) ∧
    (∀ s, HyperLogLogPlus.Reachable b g s → s.sparse_mode = true →
      (s.add x).sparse_mode = false →
      (mapFind i s.sparse_data).getD 0 ≤ (s.add x).dense_data.getD i 0) := by
  have hb : 4 ≤ b := hb4
  have hplus : ∀ s, HyperLogLogPlus.Reachable b g s → s.register i ≤ (s.add x).register i := by
    intro s hs
    rw [HyperLogLogPlus.add_register b g hb16 s x i
      (HyperLogLogPlus.reachable_inv b g hb16 s hs) hi]
    split <;> omega
  refine ⟨?_, hplus, ?_⟩
  · intro s hs
    obtain ⟨_, _, h3, _⟩ := HyperLogLog.dense_reachable_inv b g (by omega) s hs
    rw [HyperLogLog.add_getD s x i (by rw [h3]; exact hi)]
    split <;> omega
  · intro s hs hm hp
    have h := hplus s hs
    unfold HyperLogLogPlus.register at h
    rw [hm, hp] at h
    exact h

/-- Witness of `register_monotone`: the promoting `add` of `"ea"` to the hybrid sketch
with `b = 4` that holds `"aa"`, ..., `"da"`, at register 3. -/
theorem register_monotone_witness :
    (4 ≤ 4 ∧ 4 ≤ 16 ∧ 3 < 2 ^ 4) ∧
    (mapFind 3 ([[97, 97], [98, 97], [99, 97], [100, 97]].foldl HyperLogLogPlus.add
        (HyperLogLogPlus.init 4 (HashFuncGen.new 268435457 0))).sparse_data).getD 0 ≤
      (([[97, 97], [98, 97], [99, 97], [100, 97]].foldl HyperLogLogPlus.add
        (HyperLogLogPlus.init 4 (HashFuncGen.new 268435457 0))).add
          [101, 97]).dense_data.getD 3 0 :=
  ⟨⟨by decide, by decide, by decide⟩,
    (register_monotone 4 (HashFuncGen.new 268435457 0) [101, 97] 3
      (by decide) (by decide) (by decide)).2.2 _
      (HyperLogLogPlus.reachable_foldl 4 (HashFuncGen.new 268435457 0)
        [[97, 97], [98, 97], [99, 97], [100, 97]] _ HyperLogLogPlus.Reachable.init)
      (by decide) (by decide)⟩

/-- C14: for `b` in `[4,16]`, a hasher shared by both sketches, every list `L` of
strings added to a fresh sketch of each kind and every `i < 2^b`, the register view of
the hybrid sketch at `i` equals register `i` of the dense sketch (both are the
maximum rank of the items of `L` with index `i`); and `to_dense` preserves the
register view of every reachable sparse state. -/
theorem hybrid_refines_dense (b : Nat) (g : HashFuncGen) (L : List (List (Fin 256)))
    (i : Nat) (hb4 : 4 ≤ b) (hb16 : b ≤ 16) (hi : i < 2 ^ b) :
    (L.foldl HyperLogLogPlus.add (HyperLogLogPlus.init b g)).register i =
      (L.foldl HyperLogLog.add (HyperLogLog.init b g)).regs.getD i 0 ∧
    (L.foldl HyperLogLogPlus.add (HyperLogLogPlus.init b g)).register i
      = maxRankAt b g L i ∧
    (∀ s, HyperLogLogPlus.Reachable b g s → s.sparse_mode = true →
      s.to_dense.register i = s.register i) := by
  have hb : 4 ≤ b := hb4
  have hplus : (L.foldl HyperLogLogPlus.add (HyperLogLogPlus.init b g)).register i
      = maxRankAt b g L i := by
    rw [HyperLogLogPlus.foldl_add_register b g hb16 L _ i (HyperLogLogPlus.inv_init b g) hi]
    simp [HyperLogLogPlus.register, HyperLogLogPlus.init, mapFind]
  have hdense : (L.foldl HyperLogLog.add (HyperLogLog.init b g)).regs.getD i 0
      = maxRankAt b g L i := by
    rw [HyperLogLog.foldl_add_getD b g L (HyperLogLog.init b g) i rfl rfl
      (by simp [HyperLogLog.init, one_shiftLeft_eq, hi])]
    simp [HyperLogLog.init, one_shiftLeft_eq, hi]
  refine ⟨hplus.trans hdense.symm, hplus, ?_⟩
  intro s hs hm
  obtain ⟨_, h2, _, _, _, h6, _⟩ := HyperLogLogPlus.reachable_inv b g hb16 s hs
  rw [HyperLogLogPlus.register_to_dense s i (h6 hm).1 (by rw [h2]; exact hi)]
  unfold HyperLogLogPlus.register
  rw [hm]
  rfl

/-- Witness of `hybrid_refines_dense`: the five strings `"aa"`, ..., `"ea"` with
`b = 4`, after which the hybrid sketch is in dense mode, at register 3. -/
theorem hybrid_refines_dense_witness :
    (4 ≤ 4 ∧ 4 ≤ 16 ∧ 3 < 2 ^ 4) ∧
    ([[97, 97], [98, 97], [99, 97], [100, 97], [101, 97]].foldl HyperLogLogPlus.add
        (HyperLogLogPlus.init 4 (HashFuncGen.new 268435457 0))).register 3 =
      ([[97, 97], [98, 97], [99, 97], [100, 97], [101, 97]].foldl HyperLogLog.add
        (HyperLogLog.init 4 (HashFuncGen.new 268435457 0))).regs.getD 3 0 :=
  ⟨⟨by decide, by decide, by decide⟩,
    (hybrid_refines_dense 4 (HashFuncGen.new 268435457 0)
      [[97, 97], [98, 97], [99, 97], [100, 97], [101, 97]] 3
      (by decide) (by decide) (by decide)).1⟩

/-! ## The estimate of the hybrid sketch in dense mode -/

theorem HyperLogLogPlus.dense_data_eq_regs (b : Nat) (g : HashFuncGen) (hb4 : 4 ≤ b)
    (hb16 : b ≤ 16) (L : List (List (Fin 256)))
    (hd : (L.foldl HyperLogLogPlus.add (HyperLogLogPlus.init b g)).sparse_mode = false) :
    (L.foldl HyperLogLogPlus.add (HyperLogLogPlus.init b g)).dense_data =
      (L.foldl HyperLogLog.add (HyperLogLog.init b g)).regs := by
  have hb : 4 ≤ b := hb4
  obtain ⟨_, _, _, _, h5, _, _⟩ := HyperLogLogPlus.reachable_inv b g hb16 _
    (HyperLogLogPlus.reachable_foldl b g L _ HyperLogLogPlus.Reachable.init)
  obtain ⟨_, _, d3, _⟩ := HyperLogLog.dense_reachable_inv b g (by omega) _
    (HyperLogLog.dense_reachable_foldl b g L _ HyperLogLog.Reachable.init)
  apply List.ext_getElem (h5.trans d3.symm)
  intro i h1 h2
  have hi : i < 2 ^ b := by rw [← h5]; exact h1
  have hp := HyperLogLogPlus.foldl_add_register b g hb16 L _ i (HyperLogLogPlus.inv_init b g) hi
  have hq := HyperLogLog.foldl_add_getD b g L (HyperLogLog.init b g) i rfl rfl
    (by simp [HyperLogLog.init, one_shiftLeft_eq, hi])
  have hpi : (HyperLogLogPlus.init b g).register i = 0 := by
    simp [HyperLogLogPlus.register, HyperLogLogPlus.init, mapFind]
  have hqi : (HyperLogLog.init b g).regs.getD i 0 = 0 := getD_replicate_zero _ _
  unfold HyperLogLogPlus.register at hp
  rw [hd] at hp
  simp only [Bool.false_eq_true, if_false] at hp
  unfold HyperLogLogPlus.register at hpi
  rw [show (HyperLogLogPlus.init b g).sparse_mode = true from rfl, if_pos rfl] at hpi
  rw [hqi] at hq
  rw [show (HyperLogLogPlus.init b g).sparse_mode = true from rfl, if_pos rfl, hpi] at hp
  rw [List.getD_eq_getElem _ 0 h1] at hp
  rw [List.getD_eq_getElem _ 0 h2] at hq
  rw [hp, hq]

/-- C15: for `b` in `[4,16]`, a shared hasher and every list `L` of strings that
leaves a fresh hybrid sketch in dense mode, `estimate` of the hybrid sketch returns
what `estimate` of the dense sketch returns after the same list: the same `alpha`,
the same sum and zero count, the same raw estimate, and the same small-range and
large-range corrections. -/
theorem dense_estimate_agrees (b : Nat) (g : HashFuncGen) (L : List (List (Fin 256)))
    (hb4 : 4 ≤ b) (hb16 : b ≤ 16)
    (hd : (L.foldl HyperLogLogPlus.add (HyperLogLogPlus.init b g)).sparse_mode = false) :
    (L.foldl HyperLogLogPlus.add (HyperLogLogPlus.init b g)).alpha =
      (L.foldl HyperLogLog.add (HyperLogLog.init b g)).alpha ∧
    (L.foldl HyperLogLogPlus.add (HyperLogLogPlus.init b g)).denseSum =
      (L.foldl HyperLogLog.add (HyperLogLog.init b g)).sum ∧
    (L.foldl HyperLogLogPlus.add (HyperLogLogPlus.init b g)).denseZeros =
      (L.foldl HyperLogLog.add (HyperLogLog.init b g)).zeros ∧
    (∀ ln : ℚ → ℚ,
      (L.foldl HyperLogLogPlus.add (HyperLogLogPlus.init b g)).estimate ln =
        (L.foldl HyperLogLog.add (HyperLogLog.init b g)).estimate ln) := by
  have hdata := HyperLogLogPlus.dense_data_eq_regs b g hb4 hb16 L hd
  obtain ⟨_, p2, _, p4, _, _, _⟩ := HyperLogLogPlus.reachable_inv b g hb16 _
    (HyperLogLogPlus.reachable_foldl b g L _ HyperLogLogPlus.Reachable.init)
  obtain ⟨_, d2, _, _, d5, _⟩ := HyperLogLog.dense_reachable_inv b g (by omega) _
    (HyperLogLog.dense_reachable_foldl b g L _ HyperLogLog.Reachable.init)
  have hq := p2.trans d2.symm
  have ha := p4.trans d5.symm
  have hsum : (L.foldl HyperLogLogPlus.add (HyperLogLogPlus.init b g)).denseSum =
      (L.foldl HyperLogLog.add (HyperLogLog.init b g)).sum := by
    unfold HyperLogLogPlus.denseSum HyperLogLog.sum
    rw [hdata, hq]
  have hzeros : (L.foldl HyperLogLogPlus.add (HyperLogLogPlus.init b g)).denseZeros =
      (L.foldl HyperLogLog.add (HyperLogLog.init b g)).zeros := by
    unfold HyperLogLogPlus.denseZeros HyperLogLog.zeros
    rw [hdata, hq]
  refine ⟨ha, hsum, hzeros, ?_⟩
  intro ln
  unfold HyperLogLogPlus.estimate HyperLogLog.estimate HyperLogLog.raw
  simp only [hd, Bool.false_eq_true, if_false, hsum, hzeros, ha, hq]

/-- Witness of `dense_estimate_agrees`: the five strings `"aa"`, ..., `"ea"` with
`b = 4`, after which the hybrid sketch is in dense mode; `ln` is taken as `x - 1`. -/
theorem dense_estimate_agrees_witness :
    (4 ≤ 4 ∧ 4 ≤ 16 ∧
      ([[97, 97], [98, 97], [99, 97], [100, 97], [101, 97]].foldl HyperLogLogPlus.add
        (HyperLogLogPlus.init 4 (HashFuncGen.new 268435457 0))).sparse_mode = false) ∧
    ([[97, 97], [98, 97], [99, 97], [100, 97], [101, 97]].foldl HyperLogLogPlus.add
        (HyperLogLogPlus.init 4 (HashFuncGen.new 268435457 0))).estimate (fun x => x - 1) =
      ([[97, 97], [98, 97], [99, 97], [100, 97], [101, 97]].foldl HyperLogLog.add
        (HyperLogLog.init 4 (HashFuncGen.new 268435457 0))).estimate (fun x => x - 1) :=
  ⟨⟨by decide, by decide, by decide⟩,
    (dense_estimate_agrees 4 (HashFuncGen.new 268435457 0)
      [[97, 97], [98, 97], [99, 97], [100, 97], [101, 97]]
      (by decide) (by decide) (by decide)).2.2.2 (fun x => x - 1)⟩

/-! ## The estimate of the hybrid sketch in sparse mode -/

theorem one_div_two_pow_bounds (v : Nat) (hv : 1 ≤ v) :
    (0 : ℚ) < 1 / 2 ^ v ∧ (1 : ℚ) / 2 ^ v ≤ 1 / 2 := by
  have h2 : (2 : ℚ) ≤ 2 ^ v := by
    calc (2 : ℚ) = 2 ^ 1 := by norm_num
      _ ≤ 2 ^ v := pow_le_pow_right₀ (by norm_num) hv
  exact ⟨by positivity, one_div_le_one_div_of_le (by norm_num) h2⟩

theorem foldl_sparse_bounds (l : List (Nat × Nat)) :
    ∀ c : ℚ, (∀ kv ∈ l, 1 ≤ kv.2) →
      c ≤ l.foldl (fun acc kv => acc + 1 / 2 ^ kv.2) c ∧
      l.foldl (fun acc kv => acc + 1 / 2 ^ kv.2) c ≤ c + (l.length : ℚ) / 2 ∧
      (l ≠ [] → c < l.foldl (fun acc kv => acc + 1 / 2 ^ kv.2) c) := by
  induction l with
  | nil => intro c _; simp
  | cons kv t ih =>
    intro c hv
    obtain ⟨h0, h1⟩ := one_div_two_pow_bounds kv.2 (hv kv (by simp))
    obtain ⟨i1, i2, _⟩ := ih (c + 1 / 2 ^ kv.2) (fun y hy => hv y (by simp [hy]))
    rw [List.foldl_cons]
    refine ⟨by linarith, ?_, fun _ => by linarith⟩
    have : ((kv :: t).length : ℚ) = (t.length : ℚ) + 1 := by simp
    rw [this]
    linarith

theorem alphaFor_gt (q : Nat) (hq : 8 ≤ q) : 5 / 8 < alphaFor q := by
  unfold alphaFor
  split_ifs
  · omega
  · omega
  · norm_num
  · norm_num
  · norm_num
  · have hq8 : (8 : ℚ) ≤ (q : ℚ) := by exact_mod_cast hq
    have hpos : (0 : ℚ) < (q : ℚ) := by linarith
    have hfrac : (1.079 : ℚ) / (q : ℚ) ≤ 1.079 / 8 :=
      div_le_div_of_nonneg_left (by norm_num) (by norm_num) hq8
    have hden : (0 : ℚ) < 1 + 1.079 / (q : ℚ) := by
      have : (0 : ℚ) ≤ 1.079 / (q : ℚ) := div_nonneg (by norm_num) (le_of_lt hpos)
      linarith
    rw [lt_div_iff₀ hden]
    have : (5 : ℚ) / 8 * (1 + 1.079 / (q : ℚ)) ≤ 5 / 8 * (1 + 1.079 / 8) := by
      apply mul_le_mul_of_nonneg_left _ (by norm_num)
      linarith
    have h2 : (5 : ℚ) / 8 * (1 + 1.079 / 8) < 0.7213 := by norm_num
    linarith

/-- C17: for `b` in `[4,16]` and every reachable state of the hybrid sketch in sparse
mode with a non-empty map, the sum over the map entries is positive and at most
`2^b / 8` (every rank is at least 1 and there are at most `2^b / 4` entries), so the
raw estimate `alpha * m * m / sum` is at least `8 * alpha * m` and strictly above
`5 * m`; the linear-counting replacement is not applied and `estimate` returns the raw
value. -/
theorem sparse_estimate_is_raw (b : Nat) (g : HashFuncGen) (s : HyperLogLogPlus)
    (hb4 : 4 ≤ b) (hb16 : b ≤ 16) (hs : HyperLogLogPlus.Reachable b g s)
    (hm : s.sparse_mode = true) (hne : s.sparse_data ≠ []) :
    0 < s.sparseSum ∧ s.sparseSum ≤ 2 ^ b / 8 ∧
    8 * s.alpha * 2 ^ b ≤ s.alpha * s.q * s.q / s.sparseSum ∧
    5 * (s.q : ℚ) < s.alpha * s.q * s.q / s.sparseSum ∧
    (∀ ln : ℚ → ℚ, s.estimate ln = s.alpha * s.q * s.q / s.sparseSum) := by
  obtain ⟨_, h2, _, h4, _, h6, _⟩ := HyperLogLogPlus.reachable_inv b g hb16 s hs
  obtain ⟨_, hkv, hlen, _⟩ := h6 hm
  have hranks : ∀ kv ∈ s.sparse_data, 1 ≤ kv.2 := by
    intro kv hmem
    have := (hkv kv hmem).2
    omega
  obtain ⟨_, hub, hlb⟩ := foldl_sparse_bounds s.sparse_data 0 hranks
  have hsum0 : 0 < s.sparseSum := hlb hne
  have hlenq : ((s.sparse_data.length : ℚ)) * 4 ≤ 2 ^ b := by exact_mod_cast hlen
  have hsum8 : s.sparseSum ≤ 2 ^ b / 8 := by
    have : s.sparseSum ≤ 0 + (s.sparse_data.length : ℚ) / 2 := hub
    linarith
  have hq : (s.q : ℚ) = 2 ^ b := by rw [h2]; push_cast; rfl
  have hqpos : (0 : ℚ) < 2 ^ b := by positivity
  have h8 : 8 ≤ 2 ^ b := by
    calc 8 = 2 ^ 3 := by norm_num
      _ ≤ 2 ^ b := Nat.pow_le_pow_right (by norm_num) (by omega)
  have halpha : 5 / 8 < s.alpha := by
    rw [h4]
    exact alphaFor_gt (2 ^ b) h8
  have hraw8 : 8 * s.alpha * 2 ^ b ≤ s.alpha * s.q * s.q / s.sparseSum := by
    rw [hq, le_div_iff₀ hsum0]
    have hnn : 0 ≤ 8 * s.alpha * 2 ^ b := by
      have : (0 : ℚ) < s.alpha := by linarith
      positivity
    calc 8 * s.alpha * 2 ^ b * s.sparseSum ≤ 8 * s.alpha * 2 ^ b * (2 ^ b / 8) :=
          mul_le_mul_of_nonneg_left hsum8 hnn
      _ = s.alpha * 2 ^ b * 2 ^ b := by ring
  have hraw5 : 5 * (s.q : ℚ) < s.alpha * s.q * s.q / s.sparseSum := by
    refine lt_of_lt_of_le ?_ hraw8
    rw [hq]
    have : 5 * (2 : ℚ) ^ b = 8 * (5 / 8) * 2 ^ b := by ring
    rw [this]
    apply mul_lt_mul_of_pos_right _ hqpos
    linarith
  refine ⟨hsum0, hsum8, hraw8, hraw5, ?_⟩
  intro ln
  have hempty : s.sparse_data.isEmpty = false := by
    cases hl : s.sparse_data with
    | nil => exact absurd hl hne
    | cons _ _ => rfl
  unfold HyperLogLogPlus.estimate
  simp only [hm, if_true, hempty, Bool.false_eq_true, if_false]
  rw [if_neg (not_le.2 hraw5)]

/-- Witness of `sparse_estimate_is_raw`: the hybrid sketch with `b = 4` after the
string `"aa"`, whose map has the one entry `(1, 21)`; `ln` is taken as `x - 1`. -/
theorem sparse_estimate_is_raw_witness :
    (4 ≤ 4 ∧ 4 ≤ 16 ∧
      ((HyperLogLogPlus.init 4 (HashFuncGen.new 268435457 0)).add [97, 97]).sparse_mode = true ∧
      ((HyperLogLogPlus.init 4 (HashFuncGen.new 268435457 0)).add [97, 97]).sparse_data
        = [(1, 21)]) ∧
    5 * (((HyperLogLogPlus.init 4 (HashFuncGen.new 268435457 0)).add [97, 97]).q : ℚ) <
      ((HyperLogLogPlus.init 4 (HashFuncGen.new 268435457 0)).add [97, 97]).estimate
        (fun x => x - 1) :=
  ⟨⟨by decide, by decide, by decide, by decide⟩,
    by
      have h := sparse_estimate_is_raw 4 (HashFuncGen.new 268435457 0)
        ((HyperLogLogPlus.init 4 (HashFuncGen.new 268435457 0)).add [97, 97])
        (by decide) (by decide)
        (HyperLogLogPlus.Reachable.add _ [97, 97] HyperLogLogPlus.Reachable.init)
        (by decide) (by decide)
      rw [h.2.2.2.2 (fun x => x - 1)]
      exact h.2.2.2.1⟩

/-! ## Five strings in a dense sketch of 16 registers -/

theorem foldl_range_getD {β : Type} (f : β → Nat → β) (l : List Nat) :
    ∀ c : β, (List.range l.length).foldl (fun acc i => f acc (l.getD i 0)) c = l.foldl f c := by
  induction l with
  | nil => intro c; rfl
  | cons a t ih =>
    intro c
    rw [List.length_cons, List.range_succ_eq_map, List.foldl_cons, List.foldl_map,
      List.foldl_cons]
    exact ih (f c a)

theorem foldl_zero_count (l : List Nat) :
    ∀ c : Nat, l.foldl (fun z r => if r = 0 then z + 1 else z) c = c + l.count 0 := by
  induction l with
  | nil => intro c; simp
  | cons a t ih =>
    intro c
    rw [List.foldl_cons, ih]
    by_cases ha : a = 0
    · subst ha
      simp only [if_true, List.count_cons_self]
      omega
    · rw [if_neg ha, List.count_cons_of_ne (fun e => ha e.symm)]

theorem foldl_sum_ge_count (l : List Nat) :
    ∀ c : ℚ, c + (l.count 0 : ℚ) ≤ l.foldl (fun acc r => acc + 1 / 2 ^ r) c := by
  induction l with
  | nil => intro c; simp
  | cons a t ih =>
    intro c
    rw [List.foldl_cons]
    refine le_trans ?_ (ih _)
    by_cases ha : a = 0
    · subst ha
      simp only [List.count_cons_self, pow_zero, div_one, Nat.cast_add, Nat.cast_one]
      linarith
    · rw [List.count_cons_of_ne (fun e => ha e.symm)]
      have : (0 : ℚ) < 1 / 2 ^ a := by positivity
      linarith

theorem HyperLogLog.zeros_eq_count (s : HyperLogLog) (hq : s.regs.length = s.q) :
    s.zeros = s.regs.count 0 := by
  unfold HyperLogLog.zeros
  rw [← hq, foldl_range_getD (fun z r => if r = 0 then z + 1 else z) s.regs 0,
    foldl_zero_count, Nat.zero_add]

theorem HyperLogLog.sum_ge_zeros (s : HyperLogLog) (hq : s.regs.length = s.q) :
    (s.zeros : ℚ) ≤ s.sum := by
  rw [HyperLogLog.zeros_eq_count s hq]
  unfold HyperLogLog.sum
  rw [← hq, foldl_range_getD (fun acc r => acc + 1 / 2 ^ r) s.regs 0]
  have := foldl_sum_ge_count s.regs 0
  linarith

theorem count_zero_denseStep (d : List Nat) (kv : Nat × Nat) (hv : 1 ≤ kv.2) :
    d.count 0 ≤ (denseStep d kv).count 0 + 1 := by
  unfold denseStep
  split
  · by_cases hk : kv.1 < d.length
    · rw [List.count_set _ _ _ _ hk]
      have hne : (kv.2 == 0) = false := by
        rw [beq_eq_false_iff_ne]
        omega
      rw [hne]
      simp only [Bool.false_eq_true, if_false, Nat.add_zero]
      split <;> omega
    · rw [List.set_eq_of_length_le (by omega)]
      omega
  · omega

theorem HyperLogLog.count_zero_foldl (L : List (List (Fin 256))) :
    ∀ s : HyperLogLog, s.regs.count 0 ≤ (L.foldl HyperLogLog.add s).regs.count 0 + L.length := by
  induction L with
  | nil => intro s; simp
  | cons x L ih =>
    intro s
    rw [List.foldl_cons, List.length_cons]
    have h1 := ih (s.add x)
    have h2 : s.regs.count 0 ≤ (s.add x).regs.count 0 + 1 := by
      rw [HyperLogLog.add_eq]
      exact count_zero_denseStep _ _ (pos_ge_one _ _)
    omega

theorem HyperLogLog.add_getD_ge_one (s : HyperLogLog) (x : List (Fin 256))
    (hi : ind s.b (s.hasher.hash x) < s.regs.length) :
    1 ≤ (s.add x).regs.getD (ind s.b (s.hasher.hash x)) 0 := by
  rw [HyperLogLog.add_getD s x _ hi, if_pos rfl]
  have := pos_ge_one s.b (s.hasher.hash x)
  omega

/-- C11: for the dense sketch with `b = 4` and every hasher, after the five strings
`"a"`, `"b"`, `"c"`, `"d"`, `"e"` are added to a fresh sketch, between 11 and 15
registers are still zero, the raw estimate is at most `2.5 * 16`, so `estimate`
returns the linear-counting value `16 * ln (16 / zeros)`; the large-range correction
does not apply, given that `ln` is at most 1 on `[1, 2]`. -/
theorem five_strings_linear_counting (g : HashFuncGen) (ln : ℚ → ℚ)
    (hln : ∀ x : ℚ, 1 ≤ x → x ≤ 2 → ln x ≤ 1) :
    11 ≤ ([[97], [98], [99], [100], [101]].foldl HyperLogLog.add
      (HyperLogLog.init 4 g)).zeros ∧
    ([[97], [98], [99], [100], [101]].foldl HyperLogLog.add
      (HyperLogLog.init 4 g)).zeros ≤ 15 ∧
    ([[97], [98], [99], [100], [101]].foldl HyperLogLog.add
      (HyperLogLog.init 4 g)).raw ≤ 2.5 * 16 ∧
    ¬ ((16 : ℚ) * ln (16 / (([[97], [98], [99], [100], [101]].foldl HyperLogLog.add
      (HyperLogLog.init 4 g)).zeros : ℚ)) > 143165576.533) ∧
    ([[97], [98], [99], [100], [101]].foldl HyperLogLog.add
      (HyperLogLog.init 4 g)).estimate ln =
      16 * ln (16 / (([[97], [98], [99], [100], [101]].foldl HyperLogLog.add
        (HyperLogLog.init 4 g)).zeros : ℚ)) := by
  have hreach : HyperLogLog.Reachable 4 g
      ([[97], [98], [99], [100]].foldl HyperLogLog.add (HyperLogLog.init 4 g)) :=
    HyperLogLog.dense_reachable_foldl 4 g _ _ HyperLogLog.Reachable.init
  have hlast : [[97], [98], [99], [100], [101]].foldl HyperLogLog.add (HyperLogLog.init 4 g)
      = ([[97], [98], [99], [100]].foldl HyperLogLog.add (HyperLogLog.init 4 g)).add [101] :=
    rfl
  obtain ⟨e1, _, e3, e4, _, _⟩ := HyperLogLog.dense_reachable_inv 4 g (by norm_num) _ hreach
  obtain ⟨_, h2, h3, _, h5, _⟩ := HyperLogLog.dense_reachable_inv 4 g (by norm_num) _
    (HyperLogLog.dense_reachable_foldl 4 g [[97], [98], [99], [100], [101]] _
      HyperLogLog.Reachable.init)
  have hcount := HyperLogLog.count_zero_foldl [[97], [98], [99], [100], [101]]
    (HyperLogLog.init 4 g)
  have hinit : (HyperLogLog.init 4 g).regs.count 0 = 16 := by
    simp [HyperLogLog.init]
  have hz := HyperLogLog.zeros_eq_count _ (h3.trans h2.symm)
  have hsum := HyperLogLog.sum_ge_zeros _ (h3.trans h2.symm)
  have hlo : 11 ≤ ([[97], [98], [99], [100], [101]].foldl HyperLogLog.add
      (HyperLogLog.init 4 g)).zeros := by
    rw [hz]
    rw [hinit] at hcount
    simp only [List.length_cons, List.length_nil] at hcount
    omega
  have hhi : ([[97], [98], [99], [100], [101]].foldl HyperLogLog.add
      (HyperLogLog.init 4 g)).zeros ≤ 15 := by
    rw [hz]
    have hle := List.count_le_length 0 ([[97], [98], [99], [100], [101]].foldl HyperLogLog.add
      (HyperLogLog.init 4 g)).regs
    rw [h3] at hle
    by_contra hgt
    have hall : List.count 0 ([[97], [98], [99], [100], [101]].foldl HyperLogLog.add
        (HyperLogLog.init 4 g)).regs =
        ([[97], [98], [99], [100], [101]].foldl HyperLogLog.add
          (HyperLogLog.init 4 g)).regs.length := by
      rw [h3]
      have : (2 : Nat) ^ 4 = 16 := by norm_num
      omega
    rw [List.count_eq_length] at hall
    have hidx : ind ([[97], [98], [99], [100]].foldl HyperLogLog.add
        (HyperLogLog.init 4 g)).b (([[97], [98], [99], [100]].foldl HyperLogLog.add
        (HyperLogLog.init 4 g)).hasher.hash [101]) <
        ([[97], [98], [99], [100]].foldl HyperLogLog.add
          (HyperLogLog.init 4 g)).regs.length := by
      rw [e1, e3]
      exact ind_lt 4 _ (by norm_num) (hash_lt _ _)
    have hone := HyperLogLog.add_getD_ge_one _ [101] hidx
    rw [← hlast] at hone
    have hidx' : ind ([[97], [98], [99], [100]].foldl HyperLogLog.add
        (HyperLogLog.init 4 g)).b (([[97], [98], [99], [100]].foldl HyperLogLog.add
        (HyperLogLog.init 4 g)).hasher.hash [101]) <
        ([[97], [98], [99], [100], [101]].foldl HyperLogLog.add
          (HyperLogLog.init 4 g)).regs.length := by
      rw [h3, ← e3]
      exact hidx
    rw [List.getD_eq_getElem _ 0 hidx'] at hone
    have := hall _ (List.getElem_mem hidx')
    omega
  have hq : (([[97], [98], [99], [100], [101]].foldl HyperLogLog.add
      (HyperLogLog.init 4 g)).q : ℚ) = 16 := by
    rw [h2]
    norm_num
  have halpha : ([[97], [98], [99], [100], [101]].foldl HyperLogLog.add
      (HyperLogLog.init 4 g)).alpha = 0.673 := by
    rw [h5]
    norm_num [alphaFor]
  have hz11 : (11 : ℚ) ≤ (([[97], [98], [99], [100], [101]].foldl HyperLogLog.add
      (HyperLogLog.init 4 g)).zeros : ℚ) := by exact_mod_cast hlo
  have hz15 : (([[97], [98], [99], [100], [101]].foldl HyperLogLog.add
      (HyperLogLog.init 4 g)).zeros : ℚ) ≤ 15 := by exact_mod_cast hhi
  have hraw : ([[97], [98], [99], [100], [101]].foldl HyperLogLog.add
      (HyperLogLog.init 4 g)).raw ≤ 2.5 * 16 := by
    unfold HyperLogLog.raw
    rw [hq, halpha, div_le_iff₀ (by linarith)]
    have : (2.5 : ℚ) * 16 * 11 ≤ 2.5 * 16 * ([[97], [98], [99], [100], [101]].foldl
        HyperLogLog.add (HyperLogLog.init 4 g)).sum :=
      mul_le_mul_of_nonneg_left (by linarith) (by norm_num)
    have h0 : (0.673 : ℚ) * 16 * 16 ≤ 2.5 * 16 * 11 := by norm_num
    linarith
  have hlnle : ln (16 / (([[97], [98], [99], [100], [101]].foldl HyperLogLog.add
      (HyperLogLog.init 4 g)).zeros : ℚ)) ≤ 1 := by
    apply hln
    · rw [le_div_iff₀ (by linarith)]
      linarith
    · rw [div_le_iff₀ (by linarith)]
      linarith
  have hnot : ¬ ((16 : ℚ) * ln (16 / (([[97], [98], [99], [100], [101]].foldl HyperLogLog.add
      (HyperLogLog.init 4 g)).zeros : ℚ)) > 143165576.533) := by
    have h16 : (16 : ℚ) < 143165576.533 := by norm_num
    rw [not_lt]
    linarith
  refine ⟨hlo, hhi, hraw, hnot, ?_⟩
  have hraw' : ([[97], [98], [99], [100], [101]].foldl HyperLogLog.add
      (HyperLogLog.init 4 g)).raw ≤ 2.5 * (([[97], [98], [99], [100], [101]].foldl
        HyperLogLog.add (HyperLogLog.init 4 g)).q : ℚ) := by
    rw [hq]
    exact hraw
  have hzpos : ([[97], [98], [99], [100], [101]].foldl HyperLogLog.add
      (HyperLogLog.init 4 g)).zeros > 0 := by omega
  unfold HyperLogLog.estimate
  simp only [hraw', hzpos, if_true]
  rw [hq, if_neg hnot]

/-- Witness of `five_strings_linear_counting`: multiplier `2^28 + 1`, additive
constant 0, and `ln` taken as `x - 1`. -/
theorem five_strings_linear_counting_witness :
    (∀ x : ℚ, 1 ≤ x → x ≤ 2 → (fun y : ℚ => y - 1) x ≤ 1) ∧
    ([[97], [98], [99], [100], [101]].foldl HyperLogLog.add
      (HyperLogLog.init 4 (HashFuncGen.new 268435457 0))).estimate (fun y => y - 1) =
      16 * (fun y : ℚ => y - 1)
        (16 / (([[97], [98], [99], [100], [101]].foldl HyperLogLog.add
          (HyperLogLog.init 4 (HashFuncGen.new 268435457 0))).zeros : ℚ)) :=
  ⟨fun x _ h2 => by simp only; linarith,
    (five_strings_linear_counting (HashFuncGen.new 268435457 0) (fun y => y - 1)
      (fun x _ h2 => by simp only; linarith)).2.2.2.2⟩

/-! ## The mode state machine -/

theorem HyperLogLogPlus.foldl_add_dense (L : List (List (Fin 256))) :
    ∀ s : HyperLogLogPlus, s.sparse_mode = false →
      (L.foldl HyperLogLogPlus.add s).sparse_mode = false := by
  induction L with
  | nil => intro s hm; exact hm
  | cons x L ih =>
    intro s hm
    rw [List.foldl_cons]
    apply ih
    rw [HyperLogLogPlus.add_dense s x hm]
    exact hm

/-- The hash of the string made of the byte 1 followed by `n` zero bytes, under the
multiplier `2^(32-b) + 1` and the additive constant 0. -/
theorem hash_one_zeros (b n : Nat) (hb4 : 4 ≤ b) (hb16 : b ≤ 16) :
    (HashFuncGen.mk (2 ^ (32 - b) + 1) 0).hash ((1 : Fin 256) :: List.replicate n 0)
      = (1 + n * 2 ^ (32 - b)) % 2 ^ 32 := by
  have ht : 2 ^ (32 - b) < 2 ^ 29 := Nat.pow_lt_pow_right (by norm_num) (by omega)
  have ha : (2 ^ (32 - b) + 1) % 2 ^ 32 = 2 ^ (32 - b) + 1 :=
    Nat.mod_eq_of_lt (by
      have : (2 : Nat) ^ 29 < 2 ^ 32 := by norm_num
      omega)
  have hsq : 2 ^ 32 ∣ 2 ^ (32 - b) * 2 ^ (32 - b) := by
    rw [← pow_add]
    exact pow_dvd_pow 2 (by omega)
  have hfold : ∀ n j : Nat,
      (List.replicate n (0 : Fin 256)).foldl
        (fun h ch => (h * ((2 ^ (32 - b) + 1) % 2 ^ 32) + ch.val) % 2 ^ 32)
        ((1 + j * 2 ^ (32 - b)) % 2 ^ 32) = (1 + (j + n) * 2 ^ (32 - b)) % 2 ^ 32 := by
    intro n
    induction n with
    | zero => intro j; rfl
    | succ n ih =>
      intro j
      rw [List.replicate_succ, List.foldl_cons]
      have hstep : ((1 + j * 2 ^ (32 - b)) % 2 ^ 32 * ((2 ^ (32 - b) + 1) % 2 ^ 32)
          + (0 : Fin 256).val) % 2 ^ 32 = (1 + (j + 1) * 2 ^ (32 - b)) % 2 ^ 32 := by
        rw [ha]
        simp only [Fin.val_zero, Nat.add_zero]
        rw [Nat.mod_mul_mod]
        obtain ⟨c, hc⟩ := hsq
        have e : (1 + j * 2 ^ (32 - b)) * (2 ^ (32 - b) + 1)
            = (1 + (j + 1) * 2 ^ (32 - b)) + 2 ^ 32 * (j * c) := by
          have : j * 2 ^ (32 - b) * 2 ^ (32 - b) = 2 ^ 32 * (j * c) := by
            rw [Nat.mul_assoc, hc]
            ring
          calc (1 + j * 2 ^ (32 - b)) * (2 ^ (32 - b) + 1)
              = (1 + (j + 1) * 2 ^ (32 - b)) + j * 2 ^ (32 - b) * 2 ^ (32 - b) := by ring
            _ = (1 + (j + 1) * 2 ^ (32 - b)) + 2 ^ 32 * (j * c) := by rw [this]
        rw [e, Nat.add_mul_mod_self_left]
      rw [hstep, ih (j + 1)]
      congr 2
      ring
  unfold HashFuncGen.hash
  rw [foldl_step_mod (HashFuncGen.mk (2 ^ (32 - b) + 1) 0) _ 0 0 rfl]
  simp only [List.foldl_cons]
  have h1 : ((0 % 2 ^ 32 * ((2 ^ (32 - b) + 1) % 2 ^ 32) + (1 : Fin 256).val) % 2 ^ 32)
      = (1 + 0 * 2 ^ (32 - b)) % 2 ^ 32 := by
    simp
  rw [h1, hfold n 0, Nat.zero_add]

theorem ind_one_zeros (b n : Nat) (hb4 : 4 ≤ b) (hb16 : b ≤ 16) (hn : n < 2 ^ b) :
    ind b ((HashFuncGen.mk (2 ^ (32 - b) + 1) 0).hash ((1 : Fin 256) :: List.replicate n 0))
      = n := by
  rw [hash_one_zeros b n hb4 hb16]
  have e : (2 : Nat) ^ 32 = 2 ^ b * 2 ^ (32 - b) := by
    rw [← pow_add]; congr 1; omega
  have ht : 2 ≤ 2 ^ (32 - b) := by
    calc 2 = 2 ^ 1 := by norm_num
      _ ≤ 2 ^ (32 - b) := Nat.pow_le_pow_right (by norm_num) (by omega)
  have hlt : 1 + n * 2 ^ (32 - b) < 2 ^ 32 := by
    have : (n + 1) * 2 ^ (32 - b) ≤ 2 ^ b * 2 ^ (32 - b) :=
      Nat.mul_le_mul_right _ hn
    rw [e]
    have h2 : (n + 1) * 2 ^ (32 - b) = n * 2 ^ (32 - b) + 2 ^ (32 - b) := by ring
    omega
  rw [Nat.mod_eq_of_lt hlt]
  unfold ind
  rw [Nat.shiftRight_eq_div_pow, Nat.add_mul_div_right _ _ (by omega),
    Nat.div_eq_of_lt (by omega), Nat.zero_add]

/-- For every `b` in `[4,16]` some hasher and some list of strings take a fresh hybrid
sketch from sparse to dense mode. -/
theorem HyperLogLogPlus.exists_promotion (b : Nat) (hb4 : 4 ≤ b) (hb16 : b ≤ 16) :
    ∃ (g : HashFuncGen) (L : List (List (Fin 256))),
      (L.foldl HyperLogLogPlus.add (HyperLogLogPlus.init b g)).sparse_mode = false := by
  refine ⟨HashFuncGen.mk (2 ^ (32 - b) + 1) 0,
    (List.range (2 ^ b / 4 + 1)).map (fun n => (1 : Fin 256) :: List.replicate n 0), ?_⟩
  have hpow : 0 < 2 ^ b := Nat.pow_pos (by norm_num)
  have hidx : ((List.range (2 ^ b / 4 + 1)).map
      (fun n => (1 : Fin 256) :: List.replicate n 0)).map
      (fun y => ind b ((HashFuncGen.mk (2 ^ (32 - b) + 1) 0).hash y))
      = List.range (2 ^ b / 4 + 1) := by
    rw [List.map_map]
    conv_rhs => rw [← List.map_id (List.range (2 ^ b / 4 + 1))]
    apply List.map_congr_left
    intro n hn
    have hn' : n < 2 ^ b / 4 + 1 := List.mem_range.1 hn
    simp only [Function.comp, id]
    exact ind_one_zeros b n hb4 hb16 (by omega)
  have hcard : distinctIndices b (HashFuncGen.mk (2 ^ (32 - b) + 1) 0)
      ((List.range (2 ^ b / 4 + 1)).map (fun n => (1 : Fin 256) :: List.replicate n 0))
      = 2 ^ b / 4 + 1 := by
    unfold distinctIndices
    rw [hidx, List.toFinset_card_of_nodup (List.nodup_range _), List.length_range]
  obtain ⟨hsp, _⟩ := HyperLogLogPlus.foldl_add_mode b (HashFuncGen.mk (2 ^ (32 - b) + 1) 0) hb16
    ((List.range (2 ^ b / 4 + 1)).map (fun n => (1 : Fin 256) :: List.replicate n 0))
  obtain ⟨_, _, _, _, _, h6, _⟩ := HyperLogLogPlus.reachable_inv b
    (HashFuncGen.mk (2 ^ (32 - b) + 1) 0) hb16 _
    (HyperLogLogPlus.reachable_foldl b (HashFuncGen.mk (2 ^ (32 - b) + 1) 0)
      ((List.range (2 ^ b / 4 + 1)).map (fun n => (1 : Fin 256) :: List.replicate n 0)) _
      HyperLogLogPlus.Reachable.init)
  generalize ((List.range (2 ^ b / 4 + 1)).map
    (fun n => (1 : Fin 256) :: List.replicate n 0)).foldl HyperLogLogPlus.add
    (HyperLogLogPlus.init b (HashFuncGen.mk (2 ^ (32 - b) + 1) 0)) = s at hsp h6
  cases hm : s.sparse_mode with
  | false => rfl
  | true =>
    exfalso
    have hlen := (h6 hm).2.2.1
    have hcount : s.sparse_data.length = 2 ^ b / 4 + 1 := by
      rw [length_eq_card_keys _ (h6 hm).1, hsp hm]
      exact hcard
    omega

/-- C9: the mode state machine of the hybrid sketch, for `b` in `[4,16]`.  The initial
mode is sparse.  In every reachable dense state `add` leaves the mode dense, and so
does every list of further `add`s.  In every reachable sparse state `add` turns the
mode to dense exactly when the map has more than `2^b / 4` entries after the upsert:
then the result is `to_dense` of the upserted state, with an empty map, and otherwise
it is the upserted state itself, still sparse.  `reset` yields sparse mode, and the
constructed state, from either mode.  The transition from sparse to dense can be
taken: some hasher and list of strings lead a fresh sketch to dense mode. -/
theorem mode_state_machine (b : Nat) (g : HashFuncGen) (hb4 : 4 ≤ b) (hb16 : b ≤ 16) :
    (HyperLogLogPlus.init b g).sparse_mode = true ∧
    (∀ s x, HyperLogLogPlus.Reachable b g s → s.sparse_mode = false →
      (s.add x).sparse_mode = false) ∧
    (∀ (s : HyperLogLogPlus) (L : List (List (Fin 256))),
      HyperLogLogPlus.Reachable b g s → s.sparse_mode = false →
      (L.foldl HyperLogLogPlus.add s).sparse_mode = false) ∧
    (∀ s x, HyperLogLogPlus.Reachable b g s → s.sparse_mode = true →
      ((s.add x).sparse_mode = false ↔
        (s.upsert (ind s.b (s.hasher.hash x)) (pos s.b (s.hasher.hash x))).sparse_data.length
          > 2 ^ b / 4) ∧
      ((s.upsert (ind s.b (s.hasher.hash x)) (pos s.b (s.hasher.hash x))).sparse_data.length
          > 2 ^ b / 4 →
        s.add x = (s.upsert (ind s.b (s.hasher.hash x)) (pos s.b (s.hasher.hash x))).to_dense ∧
        (s.add x).sparse_data = []) ∧
      (¬ (s.upsert (ind s.b (s.hasher.hash x)) (pos s.b (s.hasher.hash x))).sparse_data.length
          > 2 ^ b / 4 →
        s.add x = s.upsert (ind s.b (s.hasher.hash x)) (pos s.b (s.hasher.hash x)) ∧
        (s.add x).sparse_mode = true)) ∧
    (∀ s, HyperLogLogPlus.Reachable b g s →
      s.reset.sparse_mode = true ∧ s.reset = HyperLogLogPlus.init b g) ∧
    (∃ (g' : HashFuncGen) (L : List (List (Fin 256))),
      (HyperLogLogPlus.init b g').sparse_mode = true ∧
      (L.foldl HyperLogLogPlus.add (HyperLogLogPlus.init b g')).sparse_mode = false) := by
  refine ⟨rfl, ?_, ?_, ?_, ?_, ?_⟩
  · intro s x _ hm
    rw [HyperLogLogPlus.add_dense s x hm]
    exact hm
  · intro s L _ hm
    exact HyperLogLogPlus.foldl_add_dense L s hm
  · intro s x hs hm
    obtain ⟨_, h2, _⟩ := HyperLogLogPlus.reachable_inv b g hb16 s hs
    have hdiv : 2 ^ b = 4 * 2 ^ (b - 2) := by
      rw [show (4 : Nat) = 2 ^ 2 by norm_num, ← pow_add]
      congr 1
      omega
    have hmode := (HyperLogLogPlus.upsert_fields s (ind s.b (s.hasher.hash x))
      (pos s.b (s.hasher.hash x))).2.2.1
    have hcond : (s.upsert (ind s.b (s.hasher.hash x))
        (pos s.b (s.hasher.hash x))).sparse_data.length * 4 > s.q ↔
        (s.upsert (ind s.b (s.hasher.hash x))
          (pos s.b (s.hasher.hash x))).sparse_data.length > 2 ^ b / 4 := by
      rw [h2]
      generalize (s.upsert (ind s.b (s.hasher.hash x))
        (pos s.b (s.hasher.hash x))).sparse_data.length = n
      generalize 2 ^ (b - 2) = m at hdiv
      omega
    have hadd := HyperLogLogPlus.add_sparse s x hm
    refine ⟨?_, ?_, ?_⟩
    · rw [hadd]
      split
      · rename_i hgt
        exact ⟨fun _ => hcond.1 hgt, fun _ => rfl⟩
      · rename_i hle
        constructor
        · intro hc
          rw [hmode, hm] at hc
          cases hc
        · intro hgt
          exact absurd (hcond.2 hgt) hle
    · intro hgt
      rw [hadd, if_pos (hcond.2 hgt)]
      exact ⟨rfl, rfl⟩
    · intro hle
      rw [hadd, if_neg (fun h => hle (hcond.1 h))]
      exact ⟨rfl, hmode.trans hm⟩
  · intro s hs
    have h := HyperLogLogPlus.reset_eq_init b g s (HyperLogLogPlus.reachable_inv b g hb16 s hs)
    rw [h]
    exact ⟨rfl, rfl⟩
  · obtain ⟨g', L, h⟩ := HyperLogLogPlus.exists_promotion b hb4 hb16
    exact ⟨g', L, rfl, h⟩

/-- Witness of `mode_state_machine` at `b = 4`, multiplier `2^28 + 1`, additive
constant 0.  After `"aa"`, `"ba"`, `"ca"`, `"da"` the sketch is sparse with 4 entries;
`add` of `"ea"` makes 5 entries, more than `16 / 4`, and the mode turns dense with an
empty map; a further `add` of `"fa"` leaves it dense; `reset` of the dense sketch
yields sparse mode; and `add` of `"aa"` to the fresh sketch, with 1 entry, stays
sparse. -/
theorem mode_state_machine_witness :
    (4 ≤ 4 ∧ 4 ≤ 16) ∧
    (([[97, 97], [98, 97], [99, 97], [100, 97]].foldl HyperLogLogPlus.add
        (HyperLogLogPlus.init 4 (HashFuncGen.new 268435457 0))).sparse_mode = true ∧
      ([[97, 97], [98, 97], [99, 97], [100, 97]].foldl HyperLogLogPlus.add
        (HyperLogLogPlus.init 4 (HashFuncGen.new 268435457 0))).sparse_data.length = 4) ∧
    ((([[97, 97], [98, 97], [99, 97], [100, 97]].foldl HyperLogLogPlus.add
        (HyperLogLogPlus.init 4 (HashFuncGen.new 268435457 0))).add [101, 97]).sparse_mode
        = false ∧
      (([[97, 97], [98, 97], [99, 97], [100, 97]].foldl HyperLogLogPlus.add
        (HyperLogLogPlus.init 4 (HashFuncGen.new 268435457 0))).add [101, 97]).sparse_data
        = []) ∧
    ((([[97, 97], [98, 97], [99, 97], [100, 97]].foldl HyperLogLogPlus.add
        (HyperLogLogPlus.init 4 (HashFuncGen.new 268435457 0))).add [101, 97]).add
          [102, 97]).sparse_mode = false ∧
    ((([[97, 97], [98, 97], [99, 97], [100, 97]].foldl HyperLogLogPlus.add
        (HyperLogLogPlus.init 4 (HashFuncGen.new 268435457 0))).add [101, 97]).reset).sparse_mode
        = true ∧
    ((HyperLogLogPlus.init 4 (HashFuncGen.new 268435457 0)).add [97, 97]).sparse_mode
      = true :=
  ⟨⟨by decide, by decide⟩,
    ⟨by decide, by decide⟩,
    ⟨((mode_state_machine 4 (HashFuncGen.new 268435457 0) (by decide) (by decide)).2.2.2.1 _
        [101, 97]
        (HyperLogLogPlus.reachable_foldl 4 (HashFuncGen.new 268435457 0)
          [[97, 97], [98, 97], [99, 97], [100, 97]] _ HyperLogLogPlus.Reachable.init)
        (by decide)).1.2 (by decide),
      (((mode_state_machine 4 (HashFuncGen.new 268435457 0) (by decide) (by decide)).2.2.2.1 _
        [101, 97]
        (HyperLogLogPlus.reachable_foldl 4 (HashFuncGen.new 268435457 0)
          [[97, 97], [98, 97], [99, 97], [100, 97]] _ HyperLogLogPlus.Reachable.init)
        (by decide)).2.1 (by decide)).2⟩,
    (mode_state_machine 4 (HashFuncGen.new 268435457 0) (by decide) (by decide)).2.1 _
      [102, 97]
      (HyperLogLogPlus.reachable_foldl 4 (HashFuncGen.new 268435457 0)
        [[97, 97], [98, 97], [99, 97], [100, 97], [101, 97]] _
        HyperLogLogPlus.Reachable.init)
      (by decide),
    ((mode_state_machine 4 (HashFuncGen.new 268435457 0) (by decide) (by decide)).2.2.2.2.1 _
      (HyperLogLogPlus.reachable_foldl 4 (HashFuncGen.new 268435457 0)
        [[97, 97], [98, 97], [99, 97], [100, 97], [101, 97]] _
        HyperLogLogPlus.Reachable.init)).1,
    (((mode_state_machine 4 (HashFuncGen.new 268435457 0) (by decide) (by decide)).2.2.2.1 _
      [97, 97] HyperLogLogPlus.Reachable.init rfl).2.2 (by decide)).2⟩
